import Mathlib

/-!
Verification development for the TKJsonDownloader repository
(src/tk_json_downloader.py).

The Python source is shallowly embedded below.  Pure helper functions
become Lean functions over `String`/`List Char`; the catalog JSON
documents become an inductive `Json` type; the download worker becomes a
pure function producing an event trace, parameterised by an environment
that models the fallible network and filesystem operations.

Modelling notes, valid throughout the file:
* Python strings are modelled by Lean `String`.  Whitespace (for
  `str.strip` and the regex class `\s`) is modelled by the six ASCII
  whitespace characters; `str.lower` and the regex class `\w` are
  modelled by their ASCII behaviour.  All concrete inputs appearing in
  theorems below are ASCII, where the two agree.
* Python standard-library functions used by the source
  (`urllib.parse.urljoin`, `urllib.parse.urlparse`, `os.path.splitext`,
  `os.path.join`, `os.path.dirname`, `str.strip`, `re.sub`) are embedded
  following the CPython reference implementations (posix flavour for the
  path functions).  `urlsplit` is fallible: a netloc with an unbalanced
  bracket raises `ValueError("Invalid IPv6 URL")`, modelled as the error
  case of `Except` and propagated through `urlparse`, `urljoin`,
  `join_url` and the catalog normalizer exactly as the exception
  propagates in the source; `guess_ext_from_url` catches it (the
  `try`/`except` of the source) and returns the default.
-/

namespace TK

/-! ## Character classes (Python `str.strip` whitespace, regex classes) -/

/-- Whitespace as stripped by Python `str.strip()` and matched by the
regex class `\s`, restricted to ASCII: space, tab, newline, carriage
return, vertical tab, form feed. -/
def isPyWs (c : Char) : Bool :=
  c = ' ' || c = '\t' || c = '\n' || c = '\x0d' || c = '\x0b' || c = '\x0c'

/-- The regex class `\w` (word character), ASCII restriction: letters,
digits, underscore. -/
def isWordChar (c : Char) : Bool :=
  c.isAlphanum || c = '_'

/-- A character kept unchanged by the substitution
`re.sub(r"[^\w\-. ]+", "_", name)` in `safe_filename`: word characters,
hyphen, period, space. -/
def isKeptChar (c : Char) : Bool :=
  isWordChar c || c = '-' || c = '.' || c = ' '

/-! ## List-level string helpers -/

/-- Drop leading characters satisfying `p` (Python `lstrip` against the
set decided by `p`). -/
def dropLeading (p : Char → Bool) : List Char → List Char
  | [] => []
  | c :: cs => if p c then dropLeading p cs else c :: cs

/-- Drop trailing characters satisfying `p`. -/
def dropTrailing (p : Char → Bool) (l : List Char) : List Char :=
  (dropLeading p l.reverse).reverse

/-- Python `str.strip()` on character lists. -/
def pyStripL (l : List Char) : List Char :=
  dropTrailing isPyWs (dropLeading isPyWs l)

/-- Replacement pass of `re.sub(r"[^\w\-. ]+", "_", name)`: every maximal
run of characters outside `[\w\-. ]` becomes a single underscore.  The
boolean state records whether the previous character was inside such a
run. -/
def replBadRuns : Bool → List Char → List Char
  | _, [] => []
  | inRun, c :: cs =>
    if isKeptChar c then c :: replBadRuns false cs
    else if inRun then replBadRuns true cs
    else '_' :: replBadRuns true cs

/-- Replacement pass of `re.sub(r"\s+", " ", name)`: every maximal run of
whitespace becomes a single space. -/
def collapseWs : Bool → List Char → List Char
  | _, [] => []
  | inRun, c :: cs =>
    if isPyWs c then
      if inRun then collapseWs true cs else ' ' :: collapseWs true cs
    else c :: collapseWs false cs

/-! ## String wrappers for the helpers of the source file -/

/-- Python `str.strip()`. -/
def pyStrip (s : String) : String :=
  (pyStripL s.toList).asString

/-- Python `str.lower()`, ASCII behaviour. -/
def pyLower (s : String) : String :=
  (s.toList.map Char.toLower).asString

/-- Python `str.lstrip("/")`. -/
def lstripSlash (s : String) : String :=
  (dropLeading (fun c => c = '/') s.toList).asString

/-- Python `str.rstrip("/")`. -/
def rstripSlash (s : String) : String :=
  (dropTrailing (fun c => c = '/') s.toList).asString

/-- The test `beginsWith pre l` holds when the character list `l` begins
with the character list `pre`. -/
def beginsWith : List Char → List Char → Bool
  | [], _ => true
  | _ :: _, [] => false
  | c :: cs, d :: ds => c = d && beginsWith cs ds

/-- Python `s.startswith(pre)` for strings. -/
def strBeginsWith (s pre : String) : Bool :=
  beginsWith pre.toList s.toList

/-- Python `s.endswith(suf)` for strings. -/
def strEndsWith (s suf : String) : Bool :=
  beginsWith suf.toList.reverse s.toList.reverse

/-- Embedding of `safe_filename` (src/tk_json_downloader.py lines 43-47):
strip, replace runs of characters outside `[\w\-. ]` with one underscore,
collapse whitespace runs to one space, strip again, and fall back to
`"file"` when the result is empty. -/
def safe_filename (name : String) : String :=
  let n1 := pyStripL name.toList
  let n2 := replBadRuns false n1
  let n3 := pyStripL (collapseWs false n2)
  if n3.isEmpty then "file" else n3.asString

/-! ## Model of `urllib.parse` (CPython reference implementation)

The source calls `urllib.parse.urljoin` (in `join_url`) and
`urllib.parse.urlparse` (in `guess_ext_from_url`).  The definitions below
follow the CPython implementation of `urlsplit`, `urlparse`,
`urlunsplit`, `urlunparse` and `urljoin`.  The `ValueError` that CPython
raises for a mismatched IPv6 bracket in the netloc is not modelled; the
model is total. -/

/-- Characters allowed in a URL scheme (CPython `scheme_chars`). -/
def schemeChar (c : Char) : Bool :=
  c.isAlphanum || c = '+' || c = '-' || c = '.'

/-- Split a character list at the first occurrence of `c`, returning the
parts before and after it, or `none` when `c` does not occur. -/
def splitAtFirst (c : Char) (l : List Char) : Option (List Char × List Char) :=
  match l.findIdx? (fun d => d = c) with
  | none => none
  | some i => some (l.take i, l.drop (i + 1))

/-- Index of the last occurrence of `c` in `l` (Python `str.rfind`,
with `none` for the `-1` of a missing character). -/
def rfindIdx (l : List Char) (c : Char) : Option Nat :=
  match l with
  | [] => none
  | a :: as =>
    match rfindIdx as c with
    | some i => some (i + 1)
    | none => if a = c then some 0 else none

/-- Python `str.split(sep)` for a one-character separator, on character
lists.  Always returns at least one (possibly empty) piece. -/
def splitChar (c : Char) : List Char → List (List Char)
  | [] => [[]]
  | d :: ds =>
    let r := splitChar c ds
    if d = c then [] :: r
    else
      match r with
      | h :: t => (d :: h) :: t
      | [] => [[d]]

/-- Join character-list segments with a slash (Python `"/".join`). -/
def joinWithSlash : List (List Char) → List Char
  | [] => []
  | [s] => s
  | s :: rest => s ++ '/' :: joinWithSlash rest

/-- Result of `urllib.parse.urlparse`. -/
structure UrlParts where
  scheme : String
  netloc : String
  path : String
  params : String
  query : String
  fragment : String
deriving DecidableEq, Repr

/-- CPython `uses_relative` scheme list. -/
def uses_relative : List String :=
  ["", "ftp", "http", "gopher", "nntp", "imap", "wais", "file", "https",
   "shttp", "mms", "prospero", "rtsp", "rtspu", "sftp", "svn", "svn+ssh",
   "ws", "wss"]

/-- CPython `uses_netloc` scheme list. -/
def uses_netloc : List String :=
  ["", "ftp", "http", "gopher", "nntp", "telnet", "imap", "wais", "file",
   "mms", "https", "shttp", "snews", "prospero", "rtsp", "rtspu", "rsync",
   "svn", "svn+ssh", "sftp", "nfs", "git", "git+ssh", "ws", "wss"]

/-- CPython `uses_params` scheme list. -/
def uses_params : List String :=
  ["", "ftp", "hdl", "prospero", "http", "imap", "https", "shttp", "rtsp",
   "rtspu", "sip", "sips", "mms", "sftp", "tel"]

/-- CPython `urllib.parse.urlsplit url defScheme` (with
`allow_fragments=True`): split off scheme, netloc, fragment and query.
A netloc containing one of the brackets `[`, `]` but not the other
raises `ValueError("Invalid IPv6 URL")`, modelled as the `Except.error`
case.  (The extra validation that CPython 3.11 added for balanced
bracketed hosts is outside this model; no netloc considered below
contains a balanced bracket pair.) -/
def urlsplitM (url0 : List Char) (defScheme : String) :
    Except String UrlParts :=
  let schemeSplit : String × List Char :=
    match url0.findIdx? (fun d => d = ':') with
    | some i =>
      if 0 < i ∧ (url0.headD ' ').isAlpha ∧ (url0.take i).all schemeChar then
        ((url0.take i).map Char.toLower |>.asString, url0.drop (i + 1))
      else (defScheme, url0)
    | none => (defScheme, url0)
  let scheme := schemeSplit.1
  let url1 := schemeSplit.2
  let netlocSplit : List Char × List Char :=
    if beginsWith ['/', '/'] url1 then
      let rest := url1.drop 2
      let idx :=
        match rest.findIdx? (fun c => c = '/' || c = '?' || c = '#') with
        | some i => i
        | none => rest.length
      (rest.take idx, rest.drop idx)
    else ([], url1)
  let netloc := netlocSplit.1
  let url2 := netlocSplit.2
  if (netloc.contains '[' ∧ ¬ netloc.contains ']') ∨
      (netloc.contains ']' ∧ ¬ netloc.contains '[') then
    Except.error "Invalid IPv6 URL"
  else
    let fragSplit : List Char × List Char :=
      match splitAtFirst '#' url2 with
      | some (a, b) => (a, b)
      | none => (url2, [])
    let url3 := fragSplit.1
    let fragment := fragSplit.2
    let querySplit : List Char × List Char :=
      match splitAtFirst '?' url3 with
      | some (a, b) => (a, b)
      | none => (url3, [])
    Except.ok
      { scheme := scheme, netloc := netloc.asString,
        path := querySplit.1.asString, params := "",
        query := querySplit.2.asString, fragment := fragment.asString }

/-- CPython `_splitparams`: split `;params` off the last path segment. -/
def splitparamsL (l : List Char) : List Char × List Char :=
  if l.contains '/' then
    let start := match rfindIdx l '/' with | some j => j | none => 0
    match (l.drop start).findIdx? (fun d => d = ';') with
    | none => (l, [])
    | some k => (l.take (start + k), l.drop (start + k + 1))
  else
    match l.findIdx? (fun d => d = ';') with
    | none => (l, [])
    | some i => (l.take i, l.drop (i + 1))

/-- CPython `urllib.parse.urlparse url defScheme`: `urlsplit` plus the
params split; the `ValueError` of `urlsplit` propagates. -/
def urlparseM (url : String) (defScheme : String) : Except String UrlParts :=
  match urlsplitM url.toList defScheme with
  | Except.error e => Except.error e
  | Except.ok sp =>
    if uses_params.contains sp.scheme ∧ sp.path.toList.contains ';' then
      let pr := splitparamsL sp.path.toList
      Except.ok { sp with path := pr.1.asString, params := pr.2.asString }
    else Except.ok sp

/-- CPython `urllib.parse.urlunsplit`. -/
def urlunsplitM (scheme netloc path query fragment : String) : String :=
  let url1 :=
    if netloc ≠ "" ∨ strBeginsWith path "//" then
      let p := if path ≠ "" ∧ ¬ strBeginsWith path "/" then "/" ++ path else path
      "//" ++ netloc ++ p
    else path
  let url2 := if scheme ≠ "" then scheme ++ ":" ++ url1 else url1
  let url3 := if query ≠ "" then url2 ++ "?" ++ query else url2
  if fragment ≠ "" then url3 ++ "#" ++ fragment else url3

/-- CPython `urllib.parse.urlunparse`. -/
def urlunparseM (scheme netloc path params query fragment : String) : String :=
  let p := if params ≠ "" then path ++ ";" ++ params else path
  urlunsplitM scheme netloc p query fragment

/-- Keep the first and last element of a segment list, dropping empty
segments in between (CPython `segments[1:-1] = filter(None, ...)`). -/
def filterMiddle : List (List Char) → List (List Char)
  | [] => []
  | [a] => [a]
  | a :: rest =>
    a :: (rest.dropLast.filter (fun s => ¬ s.isEmpty) ++
      (match rest.getLast? with | some x => [x] | none => []))

/-- Dot-segment resolution loop of CPython `urljoin`. -/
def resolveSegs (segs : List (List Char)) : List (List Char) :=
  segs.foldl
    (fun acc seg =>
      if seg = ['.', '.'] then acc.dropLast
      else if seg = ['.'] then acc
      else acc ++ [seg]) []

/-- CPython `urllib.parse.urljoin`.  An empty base or url is returned
before any parsing; otherwise the base and then the url are parsed with
`urlparse`, and a `ValueError` raised by either parse propagates. -/
def urljoin (base url : String) : Except String String :=
  if base = "" then Except.ok url
  else if url = "" then Except.ok base
  else
   match urlparseM base "" with
   | Except.error e => Except.error e
   | Except.ok b =>
    match urlparseM url b.scheme with
    | Except.error e => Except.error e
    | Except.ok r =>
    Except.ok <|
    if r.scheme ≠ b.scheme ∨ ¬ uses_relative.contains r.scheme then url
    else if uses_netloc.contains r.scheme ∧ r.netloc ≠ "" then
      urlunparseM r.scheme r.netloc r.path r.params r.query r.fragment
    else
      let netloc := if uses_netloc.contains r.scheme then b.netloc else r.netloc
      if r.path = "" ∧ r.params = "" then
        let query := if r.query = "" then b.query else r.query
        urlunparseM r.scheme netloc b.path b.params query r.fragment
      else
        let base_parts0 := splitChar '/' b.path.toList
        let base_parts :=
          if base_parts0.getLast? = some [] then base_parts0
          else base_parts0.dropLast
        let segments :=
          if beginsWith ['/'] r.path.toList then splitChar '/' r.path.toList
          else filterMiddle (base_parts ++ splitChar '/' r.path.toList)
        let resolved0 := resolveSegs segments
        let resolved :=
          if segments.getLast? = some ['.'] ∨ segments.getLast? = some ['.', '.'] then
            resolved0 ++ [[]]
          else resolved0
        let joined := joinWithSlash resolved
        let path := if joined.isEmpty then "/" else joined.asString
        urlunparseM r.scheme netloc path r.params r.query r.fragment

/-! ## Embeddings of the URL and path helpers of the source -/

/-- Embedding of `join_url` (src/tk_json_downloader.py lines 33-41):
empty input stays empty; a candidate whose stripped form starts with
`http://` or `https://` is returned stripped; otherwise the candidate
(leading slashes removed) is resolved against the base (made to end in
exactly one slash) with `urljoin`, whose `ValueError` propagates to the
caller (the source has no `try` here). -/
def join_url (base path_or_url : String) : Except String String :=
  if path_or_url = "" then Except.ok ""
  else
    let p := pyStrip path_or_url
    if strBeginsWith p "http://" || strBeginsWith p "https://" then
      Except.ok p
    else urljoin (rstripSlash base ++ "/") (lstripSlash p)

/-- Extension part of CPython `posixpath.splitext`: the suffix starting
at the last dot, provided that dot comes after the last slash and at
least one character between them is not a dot (leading dots of a file
name never start an extension). -/
def splitextExt (p : List Char) : List Char :=
  let sepIdx : Int := match rfindIdx p '/' with | some i => (i : Int) | none => -1
  let dotIdx : Int := match rfindIdx p '.' with | some i => (i : Int) | none => -1
  if sepIdx < dotIdx then
    if ((p.drop (sepIdx + 1).toNat).take (dotIdx - sepIdx - 1).toNat).any
        (fun c => c ≠ '.') then
      p.drop dotIdx.toNat
    else []
  else []

/-- Embedding of `guess_ext_from_url` (src/tk_json_downloader.py lines
49-55): extension of the path component of the URL, or the default when
that extension is empty; the `except` branch of the source catches the
`ValueError` of `urlparse` and also returns the default. -/
def guess_ext_from_url (url : String) (dflt : String) : String :=
  match urlparseM url "" with
  | Except.error _ => dflt
  | Except.ok parts =>
    let ext := splitextExt parts.path.toList
    if ext.isEmpty then dflt else ext.asString

/-- CPython `posixpath.join` for two components, as used by
`os.path.join` in `DownloadWorker.run`. -/
def pathJoin (a b : String) : String :=
  if strBeginsWith b "/" then b
  else if a = "" ∨ strEndsWith a "/" then a ++ b
  else a ++ "/" ++ b

/-- CPython `posixpath.dirname`, as used by `os.path.dirname` in
`DownloadWorker._download_to`. -/
def dirname (p : String) : String :=
  let l := p.toList
  let i := match rfindIdx l '/' with | some j => j + 1 | none => 0
  let head := l.take i
  if ¬ head.isEmpty ∧ head.any (fun c => c ≠ '/') then
    (dropTrailing (fun c => c = '/') head).asString
  else head.asString

/-! ## JSON values and the catalog data model -/

/-- Parsed JSON values, as produced by `json.loads`.  Objects are
association lists; a parsed document binds each key at most once.
Numbers are irrelevant to the program (it only inspects strings, lists
and objects), so they are carried as integers. -/
inductive Json where
  | null : Json
  | bool (b : Bool) : Json
  | num (n : Int) : Json
  | str (s : String) : Json
  | arr (xs : List Json) : Json
  | obj (kvs : List (String × Json)) : Json

/-- Python `d.get(k)` on an object association list. -/
def jlookup (kvs : List (String × Json)) (k : String) : Option Json :=
  match kvs with
  | [] => none
  | (k0, v) :: rest => if k0 = k then some v else jlookup rest k

/-- Python `d.get(k, dflt)`. -/
def jget (kvs : List (String × Json)) (k : String) (dflt : Json) : Json :=
  match jlookup kvs k with
  | some v => v
  | none => dflt

/-- Embedding of the `CatalogItem` dataclass (src/tk_json_downloader.py
lines 62-69). -/
structure CatalogItem where
  title : String
  json_url : String
  preview_url : String
  description : String
  tags : List String
  updated : String
deriving DecidableEq, Repr

/-- Embedding of `_get_first` (src/tk_json_downloader.py lines 71-76):
first key whose value is a string that is non-empty after stripping wins
and is returned stripped; otherwise the default. -/
def _get_first (d : List (String × Json)) : List String → String → String
  | [], dflt => dflt
  | k :: ks, dflt =>
    match jlookup d k with
    | some (Json.str s) =>
      if pyStrip s ≠ "" then pyStrip s else _get_first d ks dflt
    | _ => _get_first d ks dflt

/-- Embedding of `_get_tags` (src/tk_json_downloader.py lines 78-90),
generalised over the remaining key list (the source fixes it to
`["tags", "tag", "keywords", "labels"]`). -/
def _get_tags_from (d : List (String × Json)) : List String → List String
  | [] => []
  | k :: ks =>
    match jlookup d k with
    | some (Json.arr xs) =>
      xs.filterMap fun x =>
        match x with
        | Json.str s => if pyStrip s ≠ "" then some (pyStrip s) else none
        | _ => none
    | some (Json.str s) =>
      if pyStrip s ≠ "" then
        (splitChar ',' s.toList).filterMap fun t =>
          let ts := pyStripL t
          if ts.isEmpty then none else some ts.asString
      else _get_tags_from d ks
    | _ => _get_tags_from d ks

/-- Embedding of `_get_tags` with the key list of the source. -/
def _get_tags (d : List (String × Json)) : List String :=
  _get_tags_from d ["tags", "tag", "keywords", "labels"]

/-- Key aliases for the title field. -/
def title_keys : List String := ["name", "title", "world", "id"]

/-- Key aliases for the file path field. -/
def file_keys : List String := ["file", "json", "path", "url", "json_url"]

/-- Key aliases for the preview path field. -/
def preview_keys : List String :=
  ["preview", "image", "thumb", "thumbnail", "preview_url", "image_url"]

/-- Key aliases for the description field. -/
def desc_keys : List String := ["description", "desc", "about", "notes"]

/-- Key aliases for the updated field. -/
def updated_keys : List String := ["updated", "date", "modified"]

/-- Body of the per-element loop of `parse_catalog`
(src/tk_json_downloader.py lines 98-123): non-objects are skipped, the
fields are extracted through the alias lists, the file path (line 109)
and then the preview path (line 110) are resolved with `join_url` - a
`ValueError` raised by either resolution propagates - and an element
whose resolved `json_url` is empty yields no entry. -/
def parse_item (base_url : String) (it : Json) :
    Except String (Option CatalogItem) :=
  match it with
  | Json.obj d =>
    let title := _get_first d title_keys "(untitled)"
    let file_path := _get_first d file_keys ""
    let preview_path := _get_first d preview_keys ""
    let desc := _get_first d desc_keys ""
    let updated := _get_first d updated_keys ""
    let tags := _get_tags d
    match join_url base_url file_path with
    | Except.error e => Except.error e
    | Except.ok json_url =>
      match join_url base_url preview_path with
      | Except.error e => Except.error e
      | Except.ok preview_url =>
        if json_url = "" then Except.ok none
        else
          Except.ok (some
            { title := title, json_url := json_url,
              preview_url := preview_url, description := desc,
              tags := tags, updated := updated })
  | _ => Except.ok none

/-- The per-element loop of `parse_catalog`: accepted entries accumulate
in list order; the first `ValueError` raised inside the loop escapes the
whole call (the source has no `try` around the loop), discarding the
entries accumulated so far. -/
def parse_items (base_url : String) : List Json → Except String (List CatalogItem)
  | [] => Except.ok []
  | it :: rest =>
    match parse_item base_url it with
    | Except.error e => Except.error e
    | Except.ok none => parse_items base_url rest
    | Except.ok (some entry) =>
      match parse_items base_url rest with
      | Except.error e => Except.error e
      | Except.ok out => Except.ok (entry :: out)

/-- Embedding of `parse_catalog` (src/tk_json_downloader.py lines
92-125).  The item list is `raw.get("items", raw.get("worlds",
raw.get("data", [])))`, forced to the empty list when it is not a JSON
list, and handed to the per-element loop.  A document that is not a JSON
object has no `.get` method, so the call raises an `AttributeError`
(modelled as the error case; the text of the Python message is not
modelled). -/
def parse_catalog (raw : Json) (base_url : String) :
    Except String (List CatalogItem) :=
  match raw with
  | Json.obj kvs =>
    let items0 := jget kvs "items" (jget kvs "worlds" (jget kvs "data" (Json.arr [])))
    let itemsL := match items0 with | Json.arr xs => xs | _ => []
    parse_items base_url itemsL
  | _ => Except.error "AttributeError"

/-! ## Filter engine -/

/-- The test `containsSub needle hay` holds when `needle` occurs as a
contiguous substring of `hay` (Python `needle in hay`). -/
def containsSub (needle : List Char) : List Char → Bool
  | [] => needle.isEmpty
  | c :: cs => beginsWith needle (c :: cs) || containsSub needle cs

/-- Python `sep.join(parts)`. -/
def joinWith (sep : String) : List String → String
  | [] => ""
  | [s] => s
  | s :: rest => s ++ sep ++ joinWith sep rest

/-- The haystack built by `MainWindow.apply_filter`
(src/tk_json_downloader.py lines 507-512): title, description,
space-joined tags and updated, space-separated, lowercased. -/
def filter_blob (it : CatalogItem) : String :=
  pyLower (joinWith " " [it.title, it.description, joinWith " " it.tags, it.updated])

/-- The sentinel entry of the tag combo box ("all tags"). -/
def tag_sentinel : String := "(tutti i tag)"

/-- Embedding of `MainWindow.apply_filter` (src/tk_json_downloader.py
lines 496-516) as a pure function of the catalog, the raw search text
and the current tag text: the query is the stripped lowercased search
text, the sentinel tag means no tag constraint, and an entry passes when
the tag (if any) is a member of its tags and the query (if any) occurs
in the blob. -/
def apply_filter (catalog : List CatalogItem) (searchText tagText : String) :
    List CatalogItem :=
  let q := pyLower (pyStrip searchText)
  let tag := if tagText = tag_sentinel then "" else tagText
  catalog.filter fun it =>
    if tag ≠ "" ∧ ¬ it.tags.contains tag then false
    else if q = "" then true
    else containsSub q.toList (filter_blob it).toList

/-! ## Download worker

`DownloadWorker.run` (src/tk_json_downloader.py lines 156-210) is
modelled as a pure function producing an event trace.  Qt signal
emissions (`log`, `progress`, `done`, `fail`) and the side effects
(HTTP GET, `os.makedirs`, file write) are recorded as events, in program
order.  The fallible operations are supplied by an environment: `fetch`
either returns the payload bytes or the message of the raised exception;
`mkdir` and `write` return `none` on success or the message of the
raised exception.  The first raised exception aborts the run and is
reported through a single `fail` signal, exactly as the
`try`/`except` of the source. -/

/-- One event of a download run: the four Qt signals plus the three side
effects. -/
inductive Ev where
  | log (msg : String) : Ev
  | progress (done total : Nat) (title : String) : Ev
  | done : Ev
  | failSig (msg : String) : Ev
  | fetched (url : String) : Ev
  | mkdir (path : String) : Ev
  | write (path : String) (data : List Nat) : Ev
deriving DecidableEq, Repr

/-- Environment of fallible operations for a download run. -/
structure Env where
  fetch : String → Except String (List Nat)
  mkdir : String → Option String
  write : String → List Nat → Option String

/-- The JSON file name of an entry:
`safe_filename(title) + guess_ext_from_url(json_url, ".json")`
(src/tk_json_downloader.py lines 190-191). -/
def jsonNameOf (it : CatalogItem) : String :=
  safe_filename it.title ++ guess_ext_from_url it.json_url ".json"

/-- The JSON target path `os.path.join(out_dir, "json", json_name)`. -/
def jsonPathOf (out_dir : String) (it : CatalogItem) : String :=
  pathJoin (pathJoin out_dir "json") (jsonNameOf it)

/-- The preview file name of an entry:
`safe_filename(title) + guess_ext_from_url(preview_url, ".webp")`
(src/tk_json_downloader.py lines 198-199). -/
def previewNameOf (it : CatalogItem) : String :=
  safe_filename it.title ++ guess_ext_from_url it.preview_url ".webp"

/-- The preview target path `os.path.join(out_dir, "preview", img_name)`. -/
def previewPathOf (out_dir : String) (it : CatalogItem) : String :=
  pathJoin (pathJoin out_dir "preview") (previewNameOf it)

/-- Embedding of `DownloadWorker._download_to` (src/tk_json_downloader.py
lines 168-177): fetch the URL, create the parent directory of the
target, write the payload.  Returns the events of the operations that
completed, and the message of the first raised exception, if any. -/
def downloadStep (env : Env) (url path : String) : List Ev × Option String :=
  match env.fetch url with
  | Except.error e => ([], some e)
  | Except.ok data =>
    let d := dirname path
    match env.mkdir d with
    | some e => ([Ev.fetched url], some e)
    | none =>
      match env.write path data with
      | some e => ([Ev.fetched url, Ev.mkdir d], some e)
      | none => ([Ev.fetched url, Ev.mkdir d, Ev.write path data], none)

/-- One iteration of the loop of `DownloadWorker.run`
(src/tk_json_downloader.py lines 185-205) for the entry `it`, where
`doneBefore` entries of `total` were already completed. -/
def itemStep (env : Env) (out_dir : String) (alsoPreview : Bool)
    (it : CatalogItem) (doneBefore total : Nat) : List Ev × Option String :=
  let startEv := Ev.log ("• Scarico: " ++ it.title)
  let jp := jsonPathOf out_dir it
  let s1 := downloadStep env it.json_url jp
  match s1.2 with
  | some e => (startEv :: s1.1, some e)
  | none =>
    let evJ := startEv :: s1.1 ++ [Ev.log ("  ✓ JSON → " ++ jp)]
    if alsoPreview ∧ it.preview_url ≠ "" then
      let pp := previewPathOf out_dir it
      let s2 := downloadStep env it.preview_url pp
      match s2.2 with
      | some e => (evJ ++ s2.1, some e)
      | none =>
        (evJ ++ s2.1 ++
          [Ev.log ("  ✓ Preview → " ++ pp),
           Ev.progress (doneBefore + 1) total it.title], none)
    else
      (evJ ++ [Ev.progress (doneBefore + 1) total it.title], none)

/-- The `for it in self.items` loop of `DownloadWorker.run`, threading
the completed count. -/
def runLoop (env : Env) (out_dir : String) (alsoPreview : Bool) (total : Nat) :
    List CatalogItem → Nat → List Ev × Option String
  | [], _ => ([], none)
  | it :: rest, doneBefore =>
    let s := itemStep env out_dir alsoPreview it doneBefore total
    match s.2 with
    | some e => (s.1, some e)
    | none =>
      let r := runLoop env out_dir alsoPreview total rest (doneBefore + 1)
      (s.1 ++ r.1, r.2)

/-- The final log line of a successful run. -/
def finito_msg : String := "— Finito. Albero pulito. 🖤"

/-- Embedding of `DownloadWorker.run` (src/tk_json_downloader.py lines
179-210): create the output directory, process the entries in order,
then emit `done`; the first raised exception anywhere is caught by the
surrounding `try` and reported through a single `fail` signal. -/
def runWorker (env : Env) (items : List CatalogItem) (out_dir : String)
    (alsoPreview : Bool) : List Ev :=
  match env.mkdir out_dir with
  | some e => [Ev.failSig e]
  | none =>
    let r := runLoop env out_dir alsoPreview items.length items 0
    match r.2 with
    | some e => Ev.mkdir out_dir :: r.1 ++ [Ev.failSig e]
    | none => Ev.mkdir out_dir :: r.1 ++ [Ev.log finito_msg, Ev.done]

/-! ## Definitions rendering the words of the specification

The definitions in this section are not translations of the source; they
follow the wording of the specification and of the claims, and are
compared with the source-level definitions above in refinement
theorems. -/

/-- Modelled from the spec: a URL is absolute when it carries a scheme
(section 4.2 treats `http://` and `https://` candidates as "already
absolute"; genericly, absoluteness of a URI is having a scheme). -/
def is_absolute_url (s : String) : Bool :=
  match urlparseM s "" with
  | Except.ok p => p.scheme ≠ ""
  | Except.error _ => false

/-- Test for a JSON object. -/
def Json.isObj : Json → Bool
  | Json.obj _ => true
  | _ => false

/-- Claim C1 wording: the value of the first of the top-level keys
`items`, `worlds`, `data` whose value is a list; the empty list when
none of the three has a list value. -/
def first_list_value (kvs : List (String × Json)) : List Json :=
  match jlookup kvs "items" with
  | some (Json.arr xs) => xs
  | _ =>
    match jlookup kvs "worlds" with
    | some (Json.arr xs) => xs
    | _ =>
      match jlookup kvs "data" with
      | some (Json.arr xs) => xs
      | _ => []

/-- Amended C1 wording: the value of the first of the top-level keys
`items`, `worlds`, `data` that is present at all, regardless of its
value. -/
def first_present_value (kvs : List (String × Json)) : Option Json :=
  match jlookup kvs "items" with
  | some v => some v
  | none =>
    match jlookup kvs "worlds" with
    | some v => some v
    | none => jlookup kvs "data"

/-- Amended C1 wording: the effective item list is the first present
value among `items`, `worlds`, `data` when that value is a list, and
empty otherwise (also when no key is present). -/
def effective_items (kvs : List (String × Json)) : List Json :=
  match first_present_value kvs with
  | some (Json.arr xs) => xs
  | _ => []

/-- Amended C6 wording: scan the alias keys in order and return the
stripped value of the first one whose value is a string that is
non-empty after stripping; the default when no alias qualifies. -/
def first_alias_spec (d : List (String × Json)) (keys : List String)
    (dflt : String) : String :=
  match keys.findSome? (fun k =>
    match jlookup d k with
    | some (Json.str s) => if pyStrip s = "" then none else some (pyStrip s)
    | _ => none) with
  | some v => v
  | none => dflt

/-- The final segment of a path: everything after the last slash (the
whole path when it has no slash). -/
def last_segment (path : String) : String :=
  ((path.toList.reverse.takeWhile (fun c => c ≠ '/')).reverse).asString

/-- Claim C8 wording: the substring of the final path segment from its
last dot onward (including the dot), whenever the segment has a dot. -/
def ext_per_claim (seg : String) : Option String :=
  match rfindIdx seg.toList '.' with
  | none => none
  | some i => some ((seg.toList.drop i).asString)

/-- Amended C8 wording: the substring of the final path segment from its
last dot onward, provided at least one character before that dot in the
segment is not a dot (a leading run of dots never starts an
extension). -/
def ext_amended (seg : String) : Option String :=
  match rfindIdx seg.toList '.' with
  | none => none
  | some i =>
    if (seg.toList.take i).any (fun c => c ≠ '.') then
      some ((seg.toList.drop i).asString)
    else none

/-- List-level form of the amended C8 extension rule: the suffix of the
segment from its last dot onward, provided some earlier character of the
segment is not a dot; empty otherwise. -/
def extAmendedL (seg : List Char) : List Char :=
  match rfindIdx seg '.' with
  | none => []
  | some i => if (seg.take i).any (fun c => c ≠ '.') then seg.drop i else []

/-- Claim C4 wording, as stated: the tag constraint (sentinel or empty
means none, else exact membership) and the query constraint (empty
query passes, else the lowercased query must occur in the lowercased
blob), with no trimming of the query. -/
def c4_pred_claim (query tagText : String) (it : CatalogItem) : Bool :=
  (tagText = tag_sentinel || tagText = "" || it.tags.contains tagText) &&
  (query = "" || containsSub (pyLower query).toList (filter_blob it).toList)

/-- Amended C4 wording: identical to the claim except that the query is
stripped before both the emptiness test and the substring test. -/
def c4_pred_amended (searchText tagText : String) (it : CatalogItem) : Bool :=
  (tagText = tag_sentinel || tagText = "" || it.tags.contains tagText) &&
  (pyStrip searchText = "" ||
    containsSub (pyLower (pyStrip searchText)).toList (filter_blob it).toList)

/-- Claim C10 wording: a string contains a parent-directory component
when one of its slash-separated components is `..`. -/
def has_parent_component (s : String) : Bool :=
  (splitChar '/' s.toList).contains ['.', '.']

/-- A terminal signal of a download run: `done` or `fail`. -/
def Ev.isTerminal : Ev → Bool
  | Ev.done => true
  | Ev.failSig _ => true
  | _ => false

/-- A progress signal. -/
def Ev.isProgressSig : Ev → Bool
  | Ev.progress _ _ _ => true
  | _ => false

/-- The per-entry start log line (the first signal of each loop
iteration). -/
def Ev.isStartLog : Ev → Bool
  | Ev.log m => strBeginsWith m "• Scarico: "
  | _ => false

/-- A file-write event. -/
def Ev.isWrite : Ev → Bool
  | Ev.write _ _ => true
  | _ => false

/-- The head of a character list is not whitespace (vacuously true for
the empty list). -/
def headNotWs : List Char → Bool
  | [] => true
  | c :: _ => !(isPyWs c)

/-- No two adjacent whitespace characters occur in the list. -/
def noTwoWs : List Char → Bool
  | [] => true
  | c :: cs => (if isPyWs c then headNotWs cs else true) && noTwoWs cs

/-- The message `e` is one that some operation of the environment can
raise: the failure signal of a run carries the message of the operation
that failed. -/
def errSource (env : Env) (e : String) : Prop :=
  (∃ url, env.fetch url = Except.error e) ∨
  (∃ p, env.mkdir p = some e) ∨
  (∃ p data, env.write p data = some e)

/-- First concrete entry for the download-run witnesses. -/
def w_item1 : CatalogItem :=
  { title := "Alpha", json_url := "https://e/a.json",
    preview_url := "https://e/a.webp", description := "", tags := [],
    updated := "" }

/-- Second concrete entry for the download-run witnesses. -/
def w_item2 : CatalogItem :=
  { title := "Beta", json_url := "https://e/b.json", preview_url := "",
    description := "", tags := [], updated := "" }

/-- An environment where every operation succeeds. -/
def w_env_ok : Env :=
  { fetch := fun _ => Except.ok [1, 2], mkdir := fun _ => none,
    write := fun _ _ => none }

/-- An environment where fetching the second entry fails with `boom` and
everything else succeeds. -/
def w_env_fail2 : Env :=
  { fetch := fun u => if u = "https://e/b.json" then Except.error "boom"
      else Except.ok [7],
    mkdir := fun _ => none, write := fun _ _ => none }

/-! ## Supporting lemmas -/

/-- Unfolding of `List.asString` at the level of the underlying data. -/
theorem asString_data (l : List Char) : (List.asString l).data = l := rfl

/-- Lowercasing the empty string gives the empty string. -/
theorem pyLower_empty : pyLower "" = "" := rfl

/-- The lowercasing of a string is empty exactly when the string is
empty. -/
theorem pyLower_eq_empty_iff (s : String) : pyLower s = "" ↔ s = "" := by
  constructor
  · intro h
    have h2 : List.map Char.toLower s.data = [] := congrArg String.data h
    have h3 : s.data = [] := by
      cases hd : s.data with
      | nil => rfl
      | cons a l => rw [hd] at h2; simp at h2
    apply String.ext
    rw [h3]
  · intro h; subst h; rfl

/-- A member of a dropLeading result is a member of the input. -/
theorem mem_dropLeading (p : Char → Bool) (l : List Char) (c : Char)
    (h : c ∈ dropLeading p l) : c ∈ l := by
  induction l with
  | nil => simp [dropLeading] at h
  | cons a as ih =>
    by_cases ha : p a
    · simp only [dropLeading, ha, if_true] at h
      exact List.mem_cons_of_mem a (ih h)
    · simpa [dropLeading, ha] using h

/-- dropLeading removes an initial segment: the result is a suffix. -/
theorem dropLeading_suffix (p : Char → Bool) (l : List Char) :
    ∃ P, P ++ dropLeading p l = l := by
  induction l with
  | nil => exact ⟨[], rfl⟩
  | cons a as ih =>
    by_cases ha : p a
    · obtain ⟨P, hP⟩ := ih
      exact ⟨a :: P, by simp [dropLeading, ha, hP]⟩
    · exact ⟨[], by simp [dropLeading, ha]⟩

/-- dropTrailing removes a final segment: the result is a head part. -/
theorem dropTrailing_head_part (p : Char → Bool) (l : List Char) :
    ∃ T, dropTrailing p l ++ T = l := by
  obtain ⟨P, hP⟩ := dropLeading_suffix p l.reverse
  refine ⟨P.reverse, ?_⟩
  have h2 := congrArg List.reverse hP
  simpa [dropTrailing] using h2

/-- A member of a dropTrailing result is a member of the input. -/
theorem mem_dropTrailing (p : Char → Bool) (l : List Char) (c : Char)
    (h : c ∈ dropTrailing p l) : c ∈ l := by
  simp only [dropTrailing, List.mem_reverse] at h
  exact List.mem_reverse.mp (mem_dropLeading p l.reverse c h)

/-- A member of the stripped list is a member of the input. -/
theorem mem_pyStripL (l : List Char) (c : Char) (h : c ∈ pyStripL l) :
    c ∈ l :=
  mem_dropLeading isPyWs l c
    (mem_dropTrailing isPyWs (dropLeading isPyWs l) c h)

/-- The head of a dropLeading-by-whitespace result is not whitespace. -/
theorem headNotWs_dropLeading (l : List Char) :
    headNotWs (dropLeading isPyWs l) = true := by
  induction l with
  | nil => rfl
  | cons a as ih =>
    by_cases ha : isPyWs a
    · simpa [dropLeading, ha] using ih
    · simp [dropLeading, ha, headNotWs]

/-- noTwoWs restricts to the left part of an append. -/
theorem noTwoWs_append_left (P T : List Char)
    (h : noTwoWs (P ++ T) = true) : noTwoWs P = true := by
  induction P with
  | nil => rfl
  | cons a as ih =>
    simp only [List.cons_append, noTwoWs, Bool.and_eq_true] at h ⊢
    refine ⟨?_, ih h.2⟩
    by_cases ha : isPyWs a
    · simp only [ha, if_true] at h ⊢
      cases as with
      | nil => rfl
      | cons b bs => simpa [headNotWs] using h.1
    · simp [ha]

/-- noTwoWs restricts to the right part of an append. -/
theorem noTwoWs_append_right (P T : List Char)
    (h : noTwoWs (P ++ T) = true) : noTwoWs T = true := by
  induction P with
  | nil => simpa using h
  | cons a as ih =>
    simp only [List.cons_append, noTwoWs, Bool.and_eq_true] at h
    exact ih h.2

/-- noTwoWs is preserved by stripping. -/
theorem noTwoWs_pyStripL (l : List Char) (h : noTwoWs l = true) :
    noTwoWs (pyStripL l) = true := by
  obtain ⟨P, hP⟩ := dropLeading_suffix isPyWs l
  have h1 : noTwoWs (dropLeading isPyWs l) = true :=
    noTwoWs_append_right P _ (by rw [hP]; exact h)
  obtain ⟨T, hT⟩ := dropTrailing_head_part isPyWs (dropLeading isPyWs l)
  have h1b : noTwoWs (dropTrailing isPyWs (dropLeading isPyWs l) ++ T) = true := by
    rw [hT]; exact h1
  have h2 := noTwoWs_append_left _ T h1b
  simpa [pyStripL] using h2

/-- Every character of a replBadRuns result is a kept character. -/
theorem replBadRuns_kept (b : Bool) (l : List Char) (c : Char)
    (h : c ∈ replBadRuns b l) : isKeptChar c = true := by
  induction l generalizing b with
  | nil => simp [replBadRuns] at h
  | cons a as ih =>
    by_cases ha : isKeptChar a
    · simp only [replBadRuns, ha, if_true] at h
      rcases List.mem_cons.mp h with h1 | h1
      · rw [h1]; exact ha
      · exact ih false h1
    · by_cases hb : b
      · simp only [replBadRuns, ha, hb, if_false, if_true] at h
        exact ih true h
      · simp only [replBadRuns, ha, hb, if_false] at h
        rcases List.mem_cons.mp h with h1 | h1
        · rw [h1]; rfl
        · exact ih true h1

/-- replBadRuns is the identity on lists of kept characters. -/
theorem replBadRuns_id (l : List Char)
    (h : ∀ c ∈ l, isKeptChar c = true) : replBadRuns false l = l := by
  induction l with
  | nil => rfl
  | cons a as ih =>
    have ha := h a (List.mem_cons_self a as)
    simp only [replBadRuns, ha, if_true]
    rw [ih (fun c hc => h c (List.mem_cons_of_mem a hc))]

/-- Every character of a collapseWs result is a space or a character of
the input. -/
theorem collapseWs_mem (b : Bool) (l : List Char) (c : Char)
    (h : c ∈ collapseWs b l) : c = ' ' ∨ c ∈ l := by
  induction l generalizing b with
  | nil => simp [collapseWs] at h
  | cons a as ih =>
    by_cases ha : isPyWs a
    · by_cases hb : b
      · simp only [collapseWs, ha, hb, if_true] at h
        rcases ih true h with h1 | h1
        · exact Or.inl h1
        · exact Or.inr (List.mem_cons_of_mem a h1)
      · simp only [collapseWs, ha, hb, if_true, if_false] at h
        rcases List.mem_cons.mp h with h1 | h1
        · exact Or.inl h1
        · rcases ih true h1 with h2 | h2
          · exact Or.inl h2
          · exact Or.inr (List.mem_cons_of_mem a h2)
    · simp only [collapseWs, ha, if_false] at h
      rcases List.mem_cons.mp h with h1 | h1
      · exact Or.inr (by rw [h1]; exact List.mem_cons_self a as)
      · rcases ih false h1 with h2 | h2
        · exact Or.inl h2
        · exact Or.inr (List.mem_cons_of_mem a h2)

/-- Shape of a collapseWs result: no two adjacent whitespace characters,
and in the in-run state the result starts with non-whitespace. -/
theorem collapseWs_shape (l : List Char) :
    noTwoWs (collapseWs false l) = true ∧
    noTwoWs (collapseWs true l) = true ∧
    headNotWs (collapseWs true l) = true := by
  induction l with
  | nil => exact ⟨rfl, rfl, rfl⟩
  | cons a as ih =>
    obtain ⟨ihf, iht, ihh⟩ := ih
    by_cases ha : isPyWs a
    · refine ⟨?_, ?_, ?_⟩
      · simp only [collapseWs, ha, if_true, if_false, noTwoWs]
        simp [ihh, iht]
      · simpa [collapseWs, ha] using iht
      · simpa [collapseWs, ha] using ihh
    · refine ⟨?_, ?_, ?_⟩
      · simp only [collapseWs, ha, if_false, noTwoWs]
        simp [ha, ihf]
      · simp only [collapseWs, ha, if_false, noTwoWs]
        simp [ha, ihf]
      · simp [collapseWs, ha, headNotWs]

/-- In the in-run state with a non-whitespace head, collapseWs behaves
as in the neutral state. -/
theorem collapseWs_true_eq_false (l : List Char)
    (h : headNotWs l = true) : collapseWs true l = collapseWs false l := by
  cases l with
  | nil => rfl
  | cons a as =>
    have ha : isPyWs a = false := by simpa [headNotWs] using h
    simp [collapseWs, ha]

/-- collapseWs is the identity on lists with no two adjacent whitespace
characters whose only whitespace is the plain space. -/
theorem collapseWs_id (l : List Char) (h1 : noTwoWs l = true)
    (h2 : ∀ c ∈ l, isPyWs c = true → c = ' ') : collapseWs false l = l := by
  induction l with
  | nil => rfl
  | cons a as ih =>
    simp only [noTwoWs, Bool.and_eq_true] at h1
    by_cases ha : isPyWs a
    · have haSp : a = ' ' := h2 a (List.mem_cons_self a as) ha
      have hhead : headNotWs as = true := by simpa [ha] using h1.1
      simp only [collapseWs, ha, if_true, if_false]
      rw [collapseWs_true_eq_false as hhead,
        ih h1.2 (fun c hc hw => h2 c (List.mem_cons_of_mem a hc) hw), haSp]
      simp
    · simp only [collapseWs, ha, if_false]
      rw [ih h1.2 (fun c hc hw => h2 c (List.mem_cons_of_mem a hc) hw)]
      simp [ha]

/-- dropLeading is the identity when the head already fails the test. -/
theorem dropLeading_id (p : Char → Bool) (l : List Char)
    (h : match l with | [] => true | c :: _ => !(p c)) :
    dropLeading p l = l := by
  cases l with
  | nil => rfl
  | cons a as =>
    have ha : p a = false := by simpa using h
    simp [dropLeading, ha]

/-- pyStripL is the identity on lists with non-whitespace head and
last. -/
theorem pyStripL_id (l : List Char) (h1 : headNotWs l = true)
    (h2 : headNotWs l.reverse = true) : pyStripL l = l := by
  have e1 : dropLeading isPyWs l = l := by
    apply dropLeading_id
    cases l with
    | nil => rfl
    | cons a as => simpa [headNotWs] using h1
  have e2 : dropLeading isPyWs l.reverse = l.reverse := by
    apply dropLeading_id
    cases hr : l.reverse with
    | nil => rfl
    | cons a as => rw [hr] at h2; simpa [headNotWs] using h2
  simp [pyStripL, dropTrailing, e1, e2]

/-- Shape of a stripped list: non-whitespace head and last. -/
theorem pyStripL_shape (l : List Char) :
    headNotWs (pyStripL l) = true ∧
    headNotWs (pyStripL l).reverse = true := by
  constructor
  · obtain ⟨T, hT⟩ :=
      dropTrailing_head_part isPyWs (dropLeading isPyWs l)
    have hA := headNotWs_dropLeading l
    show headNotWs (dropTrailing isPyWs (dropLeading isPyWs l)) = true
    cases hd : dropTrailing isPyWs (dropLeading isPyWs l) with
    | nil => rfl
    | cons a as =>
      rw [hd] at hT
      rw [← hT] at hA
      simpa [headNotWs] using hA
  · have : (pyStripL l).reverse =
        dropLeading isPyWs (dropLeading isPyWs l).reverse := by
      simp [pyStripL, dropTrailing]
    rw [this]
    exact headNotWs_dropLeading _

/-- A kept whitespace character is the plain space. -/
theorem kept_ws_is_space (c : Char) (hk : isKeptChar c = true)
    (hw : isPyWs c = true) : c = ' ' := by
  simp only [isPyWs, Bool.or_eq_true, decide_eq_true_eq] at hw
  rcases hw with ((((h | h) | h) | h) | h) | h
  · exact h
  all_goals (subst h; exact absurd hk (by decide))

/-- Unfolding equation for `parse_item` on an object, with the field
lets reduced. -/
theorem parse_item_obj_eq (base : String) (d : List (String × Json)) :
    parse_item base (Json.obj d) =
      (match join_url base (_get_first d file_keys "") with
       | Except.error e => Except.error e
       | Except.ok json_url =>
         match join_url base (_get_first d preview_keys "") with
         | Except.error e => Except.error e
         | Except.ok preview_url =>
           if json_url = "" then Except.ok none
           else
             Except.ok (some
               { title := _get_first d title_keys "(untitled)",
                 json_url := json_url, preview_url := preview_url,
                 description := _get_first d desc_keys "",
                 tags := _get_tags d,
                 updated := _get_first d updated_keys "" })) := rfl

/-- An entry constructed by `parse_item` always has a non-empty
`json_url`: the construction is guarded by the emptiness test of the
source. -/
theorem parse_item_json_url_ne (base : String) (a : Json) (e : CatalogItem)
    (h : parse_item base a = Except.ok (some e)) : e.json_url ≠ "" := by
  cases a with
  | obj d =>
    cases hj : join_url base (_get_first d file_keys "") with
    | error e2 =>
      rw [parse_item_obj_eq] at h
      simp [hj] at h
    | ok ju =>
      cases hp : join_url base (_get_first d preview_keys "") with
      | error e2 =>
        rw [parse_item_obj_eq] at h
        simp [hj, hp] at h
      | ok pu =>
        rw [parse_item_obj_eq] at h
        simp only [hj, hp] at h
        by_cases hz : ju = ""
        · rw [if_pos hz] at h
          exact absurd h (by simp)
        · rw [if_neg hz] at h
          have h2 := Option.some.inj (Except.ok.inj h)
          rw [← h2]
          simpa using hz
  | null => exact absurd h (by simp [parse_item])
  | bool b => exact absurd h (by simp [parse_item])
  | num n => exact absurd h (by simp [parse_item])
  | str s => exact absurd h (by simp [parse_item])
  | arr xs => exact absurd h (by simp [parse_item])

/-- Every entry of a successful run of the per-element loop comes from
`parse_item` succeeding with that entry on some element. -/
theorem parse_items_mem (base : String) (l : List Json)
    (out : List CatalogItem) (h : parse_items base l = Except.ok out) :
    ∀ e ∈ out, ∃ it, parse_item base it = Except.ok (some e) := by
  induction l generalizing out with
  | nil =>
    have h2 : (Except.ok [] : Except String (List CatalogItem)) =
        Except.ok out := h
    have h3 := Except.ok.inj h2
    intro e he
    rw [← h3] at he
    exact absurd he (by simp)
  | cons it rest ih =>
    cases hp : parse_item base it with
    | error e2 =>
      have h2 : (match parse_item base it with
        | Except.error e => Except.error e
        | Except.ok none => parse_items base rest
        | Except.ok (some entry) =>
          match parse_items base rest with
          | Except.error e => Except.error e
          | Except.ok out2 => Except.ok (entry :: out2)) = Except.ok out := h
      rw [hp] at h2
      exact absurd h2 (by simp)
    | ok o =>
      cases o with
      | none =>
        have h2 : (match parse_item base it with
          | Except.error e => Except.error e
          | Except.ok none => parse_items base rest
          | Except.ok (some entry) =>
            match parse_items base rest with
            | Except.error e => Except.error e
            | Except.ok out2 => Except.ok (entry :: out2)) = Except.ok out := h
        rw [hp] at h2
        have h3 : parse_items base rest = Except.ok out := h2
        exact ih out h3
      | some entry =>
        have h2 : (match parse_item base it with
          | Except.error e => Except.error e
          | Except.ok none => parse_items base rest
          | Except.ok (some entry) =>
            match parse_items base rest with
            | Except.error e => Except.error e
            | Except.ok out2 => Except.ok (entry :: out2)) = Except.ok out := h
        rw [hp] at h2
        cases hr : parse_items base rest with
        | error e2 =>
          rw [hr] at h2
          exact absurd h2 (by simp)
        | ok out2 =>
          rw [hr] at h2
          have h3 := Except.ok.inj h2
          intro e he
          rw [← h3] at he
          rcases List.mem_cons.mp he with h4 | h4
          · exact ⟨it, by rw [h4]; exact hp⟩
          · exact ih out2 hr e h4

/-! ## Claim C7 -/

/-- Claim C7 as stated is false: `join_url` returns the *stripped*
candidate, so a candidate that begins with `http://` but carries
trailing whitespace is not returned unchanged. -/
theorem c7_counterexample :
    strBeginsWith "http://x " "http://" = true ∧
    join_url "b" "http://x " = Except.ok "http://x" ∧
    ("http://x" : String) ≠ "http://x " := by
  exact ⟨by decide, rfl, by decide⟩

/-- Claim C7 (amended): for every base and candidate whose stripped form
begins with `http://` or `https://`, `join_url` returns the stripped
candidate (and in particular never raises); a candidate with no
surrounding whitespace is therefore returned unchanged. -/
theorem c7_absolute_candidate_kept (base po : String)
    (h : (strBeginsWith (pyStrip po) "http://" ||
          strBeginsWith (pyStrip po) "https://") = true) :
    join_url base po = Except.ok (pyStrip po) := by
  by_cases h0 : po = ""
  · subst h0; exact absurd h (by decide)
  · simp only [join_url, h0, if_false, h, if_true]

/-- Witness for C7 at a concrete input. -/
theorem c7_witness :
    (strBeginsWith (pyStrip "http://x ") "http://" ||
      strBeginsWith (pyStrip "http://x ") "https://") = true ∧
    join_url "b" "http://x " = Except.ok (pyStrip "http://x ") :=
  ⟨by decide, c7_absolute_candidate_kept "b" "http://x " (by decide)⟩

/-! ## Claim C2 -/

/-- A document whose only item has a relative file path, paired with an
empty base URL. -/
def c2_doc : Json :=
  Json.obj [("items", Json.arr
    [Json.obj [("name", Json.str "A"), ("file", Json.str "a.json")]])]

/-- The entry that `parse_catalog` produces from `c2_doc` with base
URL `""`. -/
def c2_entry : CatalogItem :=
  { title := "A", json_url := "/a.json", preview_url := "",
    description := "", tags := [], updated := "" }

/-- Claim C2 as stated is false: with the base URL `""` the normalizer
produces an entry whose `json_url` is `/a.json`, which is not
absolute (it has no scheme).  Non-emptiness survives; absoluteness for
every base URL string does not. -/
theorem c2_counterexample :
    parse_catalog c2_doc "" = Except.ok [c2_entry] ∧
    c2_entry.json_url = "/a.json" ∧
    is_absolute_url "/a.json" = false := by
  exact ⟨rfl, rfl, by decide⟩

/-- Claim C2 (amended): every entry produced by a *successful* run of
the normalizer has a non-empty `json_url`, for every input document and
every base URL string; and an object element whose extracted file path
is empty (the aliases are missing, empty, or whitespace-only after
trimming) never yields an entry - it is either skipped, or, when its
preview path makes the URL resolver raise, the whole normalization
fails. -/
theorem c2_json_url_nonempty_and_drop :
    (∀ raw base entries, parse_catalog raw base = Except.ok entries →
      ∀ e ∈ entries, e.json_url ≠ "") ∧
    (∀ base d, _get_first d file_keys "" = "" →
      parse_item base (Json.obj d) = Except.ok none ∨
      ∃ err, parse_item base (Json.obj d) = Except.error err) := by
  constructor
  · intro raw base entries h e he
    cases raw with
    | obj kvs =>
      simp only [parse_catalog] at h
      obtain ⟨a, ha⟩ := parse_items_mem base _ entries h e he
      exact parse_item_json_url_ne base a e ha
    | null => exact absurd h (by simp [parse_catalog])
    | bool b => exact absurd h (by simp [parse_catalog])
    | num n => exact absurd h (by simp [parse_catalog])
    | str s => exact absurd h (by simp [parse_catalog])
    | arr xs => exact absurd h (by simp [parse_catalog])
  · intro base d h
    have hfile : join_url base (_get_first d file_keys "") = Except.ok "" := by
      rw [h]
      rfl
    cases hp : join_url base (_get_first d preview_keys "") with
    | error e2 =>
      right
      exact ⟨e2, by rw [parse_item_obj_eq]; simp [hfile, hp]⟩
    | ok pu =>
      left
      rw [parse_item_obj_eq]
      simp [hfile, hp]

/-- Witness for C2 at concrete inputs: the entry of `c2_doc` has a
non-empty `json_url`; an element whose `file` is whitespace-only is
dropped; and an element with no file path but a preview whose netloc has
an unbalanced bracket makes the resolver raise. -/
theorem c2_witness :
    c2_entry.json_url ≠ "" ∧
    (parse_item "https://e/" (Json.obj [("name", Json.str "A"),
      ("file", Json.str "   ")]) = Except.ok none ∨
     ∃ err, parse_item "https://e/" (Json.obj [("name", Json.str "A"),
       ("file", Json.str "   ")]) = Except.error err) ∧
    parse_item "https://e/" (Json.obj [("preview", Json.str "ftp://[x")]) =
      Except.error "Invalid IPv6 URL" := by
  refine ⟨?_, ?_, rfl⟩
  · exact c2_json_url_nonempty_and_drop.1 c2_doc "" [c2_entry] rfl c2_entry
      (List.mem_singleton.mpr rfl)
  · exact c2_json_url_nonempty_and_drop.2 "https://e/" _ (by decide)

/-! ## Claim C6 -/

/-- Claim C6 as stated is false: with `name` present but empty and
`title` present as `T`, the extraction returns `T`, the value of the
*later* alias, not a value derived from the earlier alias `name` (which
would be `""` stripped, or the default). -/
theorem c6_counterexample :
    _get_first [("name", Json.str ""), ("title", Json.str "T")]
      title_keys "(untitled)" = "T" ∧
    ("T" : String) ≠ "" ∧ ("T" : String) ≠ "(untitled)" := by
  exact ⟨rfl, by decide, by decide⟩

/-- Claim C6 (amended): the earlier-listed alias wins provided its value
is a string that is non-empty after trimming — in that case the later
aliases are never consulted, regardless of their values; an alias whose
value is absent, not a string, or whitespace-only is skipped and
extraction falls through to the later aliases.  Equivalently,
`_get_first` equals the first-qualifying-alias scan. -/
theorem c6_first_match_wins :
    (∀ d keys dflt, _get_first d keys dflt = first_alias_spec d keys dflt) ∧
    (∀ d k ks dflt s, jlookup d k = some (Json.str s) → pyStrip s ≠ "" →
      _get_first d (k :: ks) dflt = pyStrip s) ∧
    (∀ d k ks dflt, (∀ s, jlookup d k = some (Json.str s) → pyStrip s = "") →
      _get_first d (k :: ks) dflt = _get_first d ks dflt) := by
  refine ⟨?_, ?_, ?_⟩
  · intro d keys dflt
    induction keys with
    | nil => rfl
    | cons k ks ih =>
      simp only [_get_first, first_alias_spec, List.findSome?_cons]
      cases hv : jlookup d k with
      | none => exact ih
      | some v =>
        cases v with
        | str s =>
          by_cases hs : pyStrip s = ""
          · simpa [hs] using ih
          · simp [hs]
        | null => exact ih
        | bool b => exact ih
        | num n => exact ih
        | arr xs => exact ih
        | obj kvs => exact ih
  · intro d k ks dflt s h hs
    simp only [_get_first, h, if_pos hs]
  · intro d k ks dflt h
    cases hv : jlookup d k with
    | none => simp only [_get_first, hv]
    | some v =>
      cases v with
      | str s =>
        have hs := h s hv
        simp [_get_first, hv, hs]
      | null => simp only [_get_first, hv]
      | bool b => simp only [_get_first, hv]
      | num n => simp only [_get_first, hv]
      | arr xs => simp only [_get_first, hv]
      | obj kvs => simp only [_get_first, hv]

/-- Witness for C6 at concrete inputs: a good earlier alias wins; a
whitespace-only earlier alias falls through. -/
theorem c6_witness :
    _get_first [("name", Json.str " X ")] ["name", "title"] "(untitled)" =
      pyStrip " X " ∧
    _get_first [("name", Json.str "  ")] ["name", "title"] "(untitled)" =
      _get_first [("name", Json.str "  ")] ["title"] "(untitled)" := by
  constructor
  · exact c6_first_match_wins.2.1 [("name", Json.str " X ")] "name" ["title"]
      "(untitled)" " X " rfl (by decide)
  · refine c6_first_match_wins.2.2 [("name", Json.str "  ")] "name" ["title"]
      "(untitled)" (fun s hs => ?_)
    have hs2 : some (Json.str "  ") = some (Json.str s) := hs
    have h1 := Option.some.inj hs2
    injection h1 with h2
    rw [← h2]
    decide

/-! ## Claim C1 -/

/-- Top-level keys of a document where `items` is present but not a
list, while `worlds` holds a perfectly good list. -/
def c1_kvs : List (String × Json) :=
  [("items", Json.str "x"),
   ("worlds", Json.arr [Json.obj [("name", Json.str "A"),
     ("file", Json.str "a.json")]])]

/-- Claim C1 as stated is false on two counts.  First, the key priority
is by *presence*, not by *list-valuedness*: on `c1_kvs` the claim
prescribes using the `worlds` list (the first key whose value is a
list), which normalizes to one entry, while the code takes the present
non-list `items` value and yields no entries.  Second, a document that
is not a JSON object makes `parse_catalog` raise (surfaced as the fetch
job failure signal), not return an empty sequence. -/
theorem c1_counterexample :
    parse_catalog (Json.obj c1_kvs) "https://e/" = Except.ok [] ∧
    parse_items "https://e/" (first_list_value c1_kvs) =
      Except.ok [{ title := "A", json_url := "https://e/a.json",
                   preview_url := "", description := "", tags := [],
                   updated := "" }] ∧
    parse_catalog (Json.arr []) "https://e/" = Except.error "AttributeError" := by
  exact ⟨rfl, rfl, rfl⟩

/-- The nested `dict.get` chain of the source equals the
first-present-key locator. -/
theorem nested_get_eq_effective (kvs : List (String × Json)) :
    (match jget kvs "items" (jget kvs "worlds" (jget kvs "data" (Json.arr []))) with
     | Json.arr xs => xs
     | _ => []) = effective_items kvs := by
  simp only [effective_items, first_present_value, jget]
  cases h1 : jlookup kvs "items" with
  | some v => cases v <;> rfl
  | none =>
    cases h2 : jlookup kvs "worlds" with
    | some v => cases v <;> rfl
    | none =>
      cases h3 : jlookup kvs "data" with
      | some v => cases v <;> rfl
      | none => rfl

/-- Claim C1 (amended): on a JSON object the effective item list is the
value of the first *present* key among `items`, `worlds`, `data`,
forced to empty when that value is not a list or no key is present, and
normalization runs the per-element loop on exactly that list - an empty
effective list normalizes to the empty entry sequence, not an error
(while a resolver `ValueError` on some element makes the loop, and hence
normalization, fail); on a non-object document `parse_catalog` raises
instead. -/
theorem c1_item_list_location :
    (∀ kvs base, parse_catalog (Json.obj kvs) base =
      parse_items base (effective_items kvs)) ∧
    (∀ base, parse_items base [] = Except.ok []) ∧
    (∀ raw base, Json.isObj raw = false →
      parse_catalog raw base = Except.error "AttributeError") := by
  refine ⟨?_, ?_, ?_⟩
  · intro kvs base
    simp only [parse_catalog, nested_get_eq_effective]
  · intro base
    rfl
  · intro raw base h
    cases raw with
    | obj kvs => exact absurd h (by simp [Json.isObj])
    | null => rfl
    | bool b => rfl
    | num n => rfl
    | str s => rfl
    | arr xs => rfl

/-- Witness for C1 at concrete inputs. -/
theorem c1_witness :
    parse_catalog (Json.obj []) "b" = parse_items "b" (effective_items []) ∧
    parse_items "b" [] = Except.ok [] ∧
    parse_catalog Json.null "b" = Except.error "AttributeError" :=
  ⟨c1_item_list_location.1 [] "b", c1_item_list_location.2.1 "b",
   c1_item_list_location.2.2 Json.null "b" rfl⟩

/-! ## Claim C4 -/

/-- A one-entry catalog for the C4 counterexample. -/
def c4_item : CatalogItem :=
  { title := "a", json_url := "u", preview_url := "", description := "",
    tags := [], updated := "" }

/-- Claim C4 as stated is false: the engine strips the query first.  The
query `" a "` (with spaces) matches the entry titled `a` in the code,
while the characterisation of the claim — the lowercased query itself
must occur in the blob — rejects it. -/
theorem c4_counterexample :
    apply_filter [c4_item] " a " tag_sentinel = [c4_item] ∧
    c4_pred_claim " a " tag_sentinel c4_item = false := by
  exact ⟨rfl, by decide⟩

/-- Claim C4 (amended): membership in the filtered subset is decided by
the tag constraint ANDed with the query constraint *on the trimmed
query* (trimmed-empty query passes everything; otherwise lowercased
trimmed query as substring of the lowercased blob); the result is a
filter of the catalog, hence order-preserving; and the empty query with
the sentinel tag returns the catalog unchanged. -/
theorem c4_filter_characterisation :
    (∀ catalog searchText tagText,
      apply_filter catalog searchText tagText =
        catalog.filter (c4_pred_amended searchText tagText)) ∧
    (∀ catalog, apply_filter catalog "" tag_sentinel = catalog) := by
  have main : ∀ catalog searchText tagText,
      apply_filter catalog searchText tagText =
        catalog.filter (c4_pred_amended searchText tagText) := by
    intro catalog qt tt
    simp only [apply_filter]
    apply List.filter_congr
    intro it _
    by_cases hq : pyStrip qt = ""
    · have hql : pyLower (pyStrip qt) = "" := by rw [hq]; rfl
      by_cases hs : tt = tag_sentinel
      · simp [c4_pred_amended, hs, hq, hql, pyLower_empty]
      · by_cases ht : tt = ""
        · simp [c4_pred_amended, hs, ht, hq, hql, pyLower_empty]
        · simp [c4_pred_amended, hs, ht, hq, hql, pyLower_empty]
    · have hql : ¬ pyLower (pyStrip qt) = "" := by
        intro h; exact hq ((pyLower_eq_empty_iff (pyStrip qt)).mp h)
      by_cases hs : tt = tag_sentinel
      · simp [c4_pred_amended, hs, hq, hql]
      · by_cases ht : tt = ""
        · simp [c4_pred_amended, hs, ht, hq, hql]
        · by_cases hm : it.tags.contains tt
          · simp [c4_pred_amended, hs, ht, hq, hql, hm]
          · simp [c4_pred_amended, hs, ht, hq, hql, hm]
  refine ⟨main, fun catalog => ?_⟩
  rw [main]
  apply List.filter_eq_self.mpr
  intro a _
  simp [c4_pred_amended, show pyStrip "" = "" from rfl]

/-! ## Claims C9 and C10 -/

/-- Branch-level description of `safe_filename`. -/
theorem safe_filename_eq (x : String) :
    safe_filename x =
      (if pyStripL (collapseWs false (replBadRuns false (pyStripL x.toList))) = []
       then "file"
       else (pyStripL (collapseWs false (replBadRuns false (pyStripL x.toList)))).asString) := by
  unfold safe_filename
  by_cases h : pyStripL (collapseWs false (replBadRuns false (pyStripL x.toList))) = []
  · have he : (pyStripL (collapseWs false (replBadRuns false (pyStripL x.toList)))).isEmpty = true := by
      rw [h]; rfl
    simp [he, h]
  · have he : (pyStripL (collapseWs false (replBadRuns false (pyStripL x.toList)))).isEmpty = false := by
      cases hc : pyStripL (collapseWs false (replBadRuns false (pyStripL x.toList))) with
      | nil => exact absurd hc h
      | cons a as => rfl
    simp [he, h]

/-- Every output of `safe_filename` is the fallback `"file"` or a
non-empty list of kept characters with no two adjacent whitespace
characters and non-whitespace head and last. -/
theorem safe_filename_chars (x : String) :
    safe_filename x = "file" ∨
    (∃ l : List Char, safe_filename x = l.asString ∧ l ≠ [] ∧
      (∀ c ∈ l, isKeptChar c = true) ∧ noTwoWs l = true ∧
      headNotWs l = true ∧ headNotWs l.reverse = true) := by
  rw [safe_filename_eq]
  by_cases h : pyStripL (collapseWs false (replBadRuns false (pyStripL x.toList))) = []
  · left; rw [if_pos h]
  · right
    refine ⟨pyStripL (collapseWs false (replBadRuns false (pyStripL x.toList))),
      by rw [if_neg h], h, ?_, ?_, ?_, ?_⟩
    · intro c hc
      rcases collapseWs_mem false _ c (mem_pyStripL _ c hc) with h1 | h1
      · rw [h1]; decide
      · exact replBadRuns_kept false _ c h1
    · exact noTwoWs_pyStripL _ (collapseWs_shape _).1
    · exact (pyStripL_shape _).1
    · exact (pyStripL_shape _).2

/-- `safe_filename` fixes any non-empty string of kept characters with
no two adjacent whitespace characters and non-whitespace head and
last. -/
theorem safe_filename_fixed (l : List Char) (hne : l ≠ [])
    (hk : ∀ c ∈ l, isKeptChar c = true) (hn : noTwoWs l = true)
    (hh : headNotWs l = true) (ht : headNotWs l.reverse = true) :
    safe_filename l.asString = l.asString := by
  have htl : (l.asString).toList = l := rfl
  have e1 : pyStripL l = l := pyStripL_id l hh ht
  have e2 : replBadRuns false l = l := replBadRuns_id l hk
  have e3 : collapseWs false l = l :=
    collapseWs_id l hn (fun c hc hw => kept_ws_is_space c (hk c hc) hw)
  rw [safe_filename_eq, htl, e1, e2, e3, e1]
  simp [hne]

/-- Claim C9: the filename sanitizer is idempotent. -/
theorem c9_sanitize_idempotent (x : String) :
    safe_filename (safe_filename x) = safe_filename x := by
  rcases safe_filename_chars x with h | ⟨l, hl, hne, hk, hn, hh, ht⟩
  · rw [h]; decide
  · rw [hl]
    exact safe_filename_fixed l hne hk hn hh ht

/-- Claim C10 as stated is false: the sanitizer maps `..` to itself,
which is a parent-directory component. -/
theorem c10_counterexample :
    safe_filename ".." = ".." ∧ has_parent_component ".." = true := by
  exact ⟨rfl, by decide⟩

/-- Claim C10 (amended): the sanitizer output is non-empty and contains
only word characters, hyphens, periods and spaces — in particular never
a path separator (`/` or `\`); the literal component `..` can however
survive, so the parent-directory exclusion of the claim does not hold as
stated. -/
theorem c10_sanitizer_output_safe (x : String) :
    safe_filename x ≠ "" ∧
    (∀ c ∈ (safe_filename x).toList, isKeptChar c = true) ∧
    '/' ∉ (safe_filename x).toList ∧
    '\\' ∉ (safe_filename x).toList := by
  rcases safe_filename_chars x with h | ⟨l, hl, hne, hk, _, _, _⟩
  · rw [h]
    refine ⟨by decide, ?_, by decide, by decide⟩
    have hall : ∀ c ∈ ("file" : String).toList, isKeptChar c = true := by decide
    exact hall
  · rw [hl]
    have htl : (l.asString).toList = l := rfl
    rw [htl]
    refine ⟨?_, hk, ?_, ?_⟩
    · intro h0
      apply hne
      have h1 := congrArg String.data h0
      simpa [asString_data] using h1
    · intro hmem
      exact absurd (hk '/' hmem) (by decide)
    · intro hmem
      exact absurd (hk '\\' hmem) (by decide)

/-- Witness for C10 at a concrete input containing a path separator. -/
theorem c10_witness :
    safe_filename "a/b" ≠ "" ∧ isKeptChar 'a' = true ∧
    '/' ∉ (safe_filename "a/b").toList :=
  ⟨(c10_sanitizer_output_safe "a/b").1,
   (c10_sanitizer_output_safe "a/b").2.1 'a' (by decide),
   (c10_sanitizer_output_safe "a/b").2.2.1⟩

/-! ## Claim C8 -/

/-- A character is missing exactly when its last index is `none`. -/
theorem rfindIdx_none (l : List Char) (c : Char) :
    rfindIdx l c = none ↔ c ∉ l := by
  induction l with
  | nil => simp [rfindIdx]
  | cons a as ih =>
    simp only [rfindIdx]
    cases h : rfindIdx as c with
    | some i => simp [h, ← ih, List.mem_cons]
    | none =>
      by_cases ha : a = c
      · simp [ha, List.mem_cons]
      · have hca : ¬ c = a := fun hh => ha hh.symm
        simp [ha, List.mem_cons, hca, ← ih, h]

/-- The last index in an append is governed by the right part when the
character occurs there. -/
theorem rfindIdx_append (A B : List Char) (c : Char) :
    rfindIdx (A ++ B) c =
      match rfindIdx B c with
      | some i => some (A.length + i)
      | none => rfindIdx A c := by
  induction A with
  | nil => cases h : rfindIdx B c <;> simp [h, rfindIdx]
  | cons a as ih =>
    have step : rfindIdx ((a :: as) ++ B) c =
        (match rfindIdx (as ++ B) c with
         | some i => some (i + 1)
         | none => if a = c then some 0 else none) := rfl
    rw [step, ih]
    cases h : rfindIdx B c with
    | some i =>
      show some (as.length + i + 1) = some ((a :: as).length + i)
      congr 1
      simp only [List.length_cons]
      omega
    | none => rfl

/-- The position of a last occurrence is inside the list. -/
theorem rfindIdx_lt_length (l : List Char) (c : Char) (i : Nat)
    (h : rfindIdx l c = some i) : i < l.length := by
  induction l generalizing i with
  | nil => simp [rfindIdx] at h
  | cons a as ih =>
    simp only [rfindIdx] at h
    cases h2 : rfindIdx as c with
    | some j =>
      rw [h2] at h
      have hj := ih j h2
      have hji : j + 1 = i := Option.some.inj h
      simp only [List.length_cons]
      omega
    | none =>
      rw [h2] at h
      by_cases ha : a = c
      · simp only [ha, if_pos rfl] at h
        have h0 : (0 : Nat) = i := Option.some.inj h
        simp only [List.length_cons]
        omega
      · simp [ha] at h

/-- Splitting a list at the last occurrence of a character. -/
theorem rfind_decomp (l : List Char) (c : Char) :
    (rfindIdx l c = none ∧ c ∉ l) ∨
    (∃ pre suf, l = pre ++ c :: suf ∧ c ∉ suf ∧
      rfindIdx l c = some pre.length) := by
  induction l with
  | nil => exact Or.inl ⟨rfl, by simp⟩
  | cons a as ih =>
    rcases ih with ⟨h1, h2⟩ | ⟨pre, suf, heq, hns, hidx⟩
    · by_cases ha : a = c
      · refine Or.inr ⟨[], as, ?_, h2, ?_⟩
        · simp [ha]
        · simp [rfindIdx, h1, ha]
      · refine Or.inl ⟨?_, ?_⟩
        · simp [rfindIdx, h1, ha]
        · intro hmem
          rcases List.mem_cons.mp hmem with hh | hh
          · exact ha hh.symm
          · exact h2 hh
    · refine Or.inr ⟨a :: pre, suf, by rw [heq]; rfl, hns, ?_⟩
      simp [rfindIdx, hidx]

/-- The tail from a last occurrence starts with the character. -/
theorem rfindIdx_drop (l : List Char) (c : Char) (i : Nat)
    (h : rfindIdx l c = some i) : ∃ t, l.drop i = c :: t := by
  rcases rfind_decomp l c with ⟨h1, _⟩ | ⟨pre, suf, heq, _, hidx⟩
  · rw [h1] at h; exact absurd h (by simp)
  · rw [hidx] at h
    have hi : i = pre.length := (Option.some.inj h).symm
    subst hi
    refine ⟨suf, ?_⟩
    rw [heq]
    rw [List.drop_append_of_le_length (Nat.le_refl _)]
    simp

/-- takeWhile stops exactly at the first failing element after a clean
run. -/
theorem takeWhile_append_not (q : Char → Bool) (A B : List Char) (b : Char)
    (hA : ∀ x ∈ A, q x = true) (hb : q b = false) :
    (A ++ b :: B).takeWhile q = A := by
  induction A with
  | nil => simp [List.takeWhile, hb]
  | cons a as ih =>
    have ha := hA a (List.mem_cons_self a as)
    simp only [List.cons_append, List.takeWhile, ha]
    exact congrArg (fun t => a :: t)
      (ih (fun x hx => hA x (List.mem_cons_of_mem a hx)))

/-- takeWhile keeps a list all of whose elements pass the test. -/
theorem takeWhile_all (q : Char → Bool) (A : List Char)
    (hA : ∀ x ∈ A, q x = true) : A.takeWhile q = A := by
  induction A with
  | nil => rfl
  | cons a as ih =>
    have ha := hA a (List.mem_cons_self a as)
    simp only [List.takeWhile, ha]
    exact congrArg (fun t => a :: t)
      (ih fun x hx => hA x (List.mem_cons_of_mem a hx))

/-- Dropping the left part of an append plus `n` drops `n` of the right
part. -/
theorem drop_append_len (A B : List Char) (n : Nat) :
    (A ++ B).drop (A.length + n) = B.drop n := by
  induction A with
  | nil => simp
  | cons a as ih =>
    have hlen : (a :: as).length + n = (as.length + n) + 1 := by
      simp only [List.length_cons]; omega
    rw [hlen]
    exact ih

/-- The extension rule of `posixpath.splitext` matches the amended
wording of C8: it is the last-dot suffix of the final path segment,
guarded by the requirement that some character of the segment before the
dot is not itself a dot. -/
theorem splitext_eq_amended (p : List Char) :
    splitextExt p =
      extAmendedL ((p.reverse.takeWhile (fun c => c ≠ '/')).reverse) := by
  rcases rfind_decomp p '/' with ⟨hsep, hnot⟩ | ⟨pre, suf, heq, hns, hidx⟩
  · have hseg : p.reverse.takeWhile (fun c => c ≠ '/') = p.reverse := by
      apply takeWhile_all
      intro x hx
      have hxp : x ∈ p := List.mem_reverse.mp hx
      have hxne : x ≠ '/' := fun he => hnot (he ▸ hxp)
      exact decide_eq_true hxne
    rw [hseg, List.reverse_reverse]
    simp only [splitextExt, extAmendedL, hsep]
    cases hdot : rfindIdx p '.' with
    | none => simp
    | some j =>
      have e0 : ((-1 : Int) < (j : Int)) := by omega
      have e1 : ((-1 : Int) + 1).toNat = 0 := by omega
      have e2 : ((j : Int) - (-1) - 1).toNat = j := by omega
      have e3 : ((j : Int)).toNat = j := by omega
      simp only [if_pos e0, e1, e2, e3, List.drop_zero]
  · subst heq
    have hseg : (pre ++ '/' :: suf).reverse.takeWhile (fun c => c ≠ '/') =
        suf.reverse := by
      have hrev : (pre ++ '/' :: suf).reverse =
          suf.reverse ++ '/' :: pre.reverse := by
        simp
      rw [hrev]
      apply takeWhile_append_not
      · intro x hx
        have hxp : x ∈ suf := List.mem_reverse.mp hx
        have hxne : x ≠ '/' := fun he => hns (he ▸ hxp)
        exact decide_eq_true hxne
      · simp
    rw [hseg, List.reverse_reverse]
    have hB : rfindIdx ('/' :: suf) '.' =
        (match rfindIdx suf '.' with
         | some i => some (i + 1)
         | none => none) := by
      show (match rfindIdx suf '.' with
            | some i => some (i + 1)
            | none => if '/' = '.' then some 0 else none) = _
      cases rfindIdx suf '.' <;> simp
    have hdotp := rfindIdx_append pre ('/' :: suf) '.'
    rw [hB] at hdotp
    have hsplit : pre ++ '/' :: suf = (pre ++ ['/']) ++ suf := by simp
    cases hds : rfindIdx suf '.' with
    | some i =>
      rw [hds] at hdotp
      have hdotp2 : rfindIdx (pre ++ '/' :: suf) '.' =
          some (pre.length + (i + 1)) := hdotp
      simp only [extAmendedL, hds]
      simp only [splitextExt, hidx, hdotp2]
      have c1 : ((pre.length : Int) < ((pre.length + (i + 1) : Nat) : Int)) := by
        push_cast; omega
      rw [if_pos c1]
      have e1 : (((pre.length : Int)) + 1).toNat = pre.length + 1 := by omega
      have e2 : ((((pre.length + (i + 1) : Nat)) : Int) -
          (pre.length : Int) - 1).toNat = i := by push_cast; omega
      rw [e1, e2]
      have e3 : (pre ++ '/' :: suf).drop (pre.length + 1) = suf := by
        rw [hsplit]
        have hl : pre.length + 1 = (pre ++ ['/']).length + 0 := by simp
        rw [hl, drop_append_len]
        simp
      rw [e3]
      by_cases hany : (suf.take i).any (fun c => c ≠ '.') = true
      · rw [if_pos hany, if_pos hany]
        have e4 : ((((pre.length + (i + 1) : Nat)) : Int)).toNat =
            (pre ++ ['/']).length + i := by
          simp only [List.length_append, List.length_cons, List.length_nil]
          push_cast; omega
        rw [e4, hsplit, drop_append_len]
      · rw [if_neg hany, if_neg hany]
    | none =>
      rw [hds] at hdotp
      have hdotp2 : rfindIdx (pre ++ '/' :: suf) '.' = rfindIdx pre '.' := hdotp
      simp only [extAmendedL, hds]
      cases hdp : rfindIdx pre '.' with
      | none =>
        rw [hdp] at hdotp2
        simp only [splitextExt, hidx, hdotp2]
        have cneg : ¬ ((pre.length : Int) < (-1 : Int)) := by omega
        rw [if_neg cneg]
      | some j =>
        rw [hdp] at hdotp2
        simp only [splitextExt, hidx, hdotp2]
        have hlt := rfindIdx_lt_length pre '.' j hdp
        have cneg : ¬ ((pre.length : Int) < (j : Int)) := by omega
        rw [if_neg cneg]

/-- Claim C8 as stated is false: `http://h/.bashrc` parses (to the path
`/.bashrc`), its final segment `.bashrc` has a dot, so the claim
prescribes the extension `.bashrc`, but `splitext` treats a leading dot
as part of a hidden file name and the code falls back to the default. -/
theorem c8_counterexample :
    guess_ext_from_url "http://h/.bashrc" ".json" = ".json" ∧
    urlparseM "http://h/.bashrc" "" = Except.ok
      { scheme := "http", netloc := "h", path := "/.bashrc", params := "",
        query := "", fragment := "" } ∧
    ext_per_claim (last_segment "/.bashrc") = some ".bashrc" ∧
    (".bashrc" : String) ≠ ".json" := by
  exact ⟨rfl, rfl, rfl, by decide⟩

/-- The extension-or-default computation on a given path string equals
the amended per-segment rule on the final segment of that path. -/
theorem guess_ext_core (path dflt : String) :
    (if (splitextExt path.toList).isEmpty = true then dflt
     else (splitextExt path.toList).asString) =
      (match ext_amended (last_segment path) with
       | some e => e
       | none => dflt) := by
  unfold last_segment ext_amended
  rw [splitext_eq_amended path.toList]
  have htl : ((path.toList.reverse.takeWhile (fun c => c ≠ '/')).reverse.asString).toList
      = (path.toList.reverse.takeWhile (fun c => c ≠ '/')).reverse := rfl
  rw [htl]
  generalize (path.toList.reverse.takeWhile (fun c => c ≠ '/')).reverse = L
  cases hr : rfindIdx L '.' with
  | none =>
    simp only [extAmendedL, hr]
    simp
  | some i =>
    simp only [extAmendedL, hr]
    by_cases hany : (L.take i).any (fun c => c ≠ '.') = true
    · rw [if_pos hany, if_pos hany]
      obtain ⟨t, ht⟩ := rfindIdx_drop L '.' i hr
      have hne : (L.drop i).isEmpty = false := by rw [ht]; rfl
      rw [hne]
      simp
    · rw [if_neg hany, if_neg hany]
      simp

/-- Claim C8 (amended): when the URL parses, `guess_ext_from_url url
default` returns the substring of the final segment of the URL path from
its last dot onward, provided at least one character of the segment
before that dot is not a dot; in every other case - no dot, only
leading dots before it, or a parse failure (the `ValueError` of
`urlparse`, e.g. on an unbalanced bracket in the netloc) - it returns
the default.  The second conjunct exhibits the parse-failure fallback on
a concrete malformed URL. -/
theorem c8_extension_rule (url dflt : String) :
    (guess_ext_from_url url dflt =
      match urlparseM url "" with
      | Except.error _ => dflt
      | Except.ok parts =>
        match ext_amended (last_segment parts.path) with
        | some e => e
        | none => dflt) ∧
    guess_ext_from_url "http://[::1/x.png" ".webp" = ".webp" := by
  constructor
  · cases hp : urlparseM url "" with
    | error e => simp [guess_ext_from_url, hp]
    | ok parts =>
      have h1 : guess_ext_from_url url dflt =
          (if (splitextExt parts.path.toList).isEmpty = true then dflt
           else (splitextExt parts.path.toList).asString) := by
        simp only [guess_ext_from_url, hp]
      rw [h1]
      exact guess_ext_core parts.path dflt
  · rfl

/-! ## Claims C3 and C5: download worker lemmas -/

/-- Event classification: a fetched event is no signal. -/
@[simp] theorem isTerminal_fetched (u : String) : (Ev.fetched u).isTerminal = false := rfl

/-- Event classification. -/
@[simp] theorem isTerminal_mkdir (p : String) : (Ev.mkdir p).isTerminal = false := rfl

/-- Event classification. -/
@[simp] theorem isTerminal_write (p : String) (d : List Nat) :
    (Ev.write p d).isTerminal = false := rfl

/-- Event classification. -/
@[simp] theorem isTerminal_log (m : String) : (Ev.log m).isTerminal = false := rfl

/-- Event classification. -/
@[simp] theorem isTerminal_progress (a b : Nat) (t : String) :
    (Ev.progress a b t).isTerminal = false := rfl

/-- Event classification. -/
@[simp] theorem isTerminal_done : (Ev.done).isTerminal = true := rfl

/-- Event classification. -/
@[simp] theorem isTerminal_failSig (e : String) : (Ev.failSig e).isTerminal = true := rfl

/-- Event classification. -/
@[simp] theorem isProgressSig_fetched (u : String) : (Ev.fetched u).isProgressSig = false := rfl

/-- Event classification. -/
@[simp] theorem isProgressSig_mkdir (p : String) : (Ev.mkdir p).isProgressSig = false := rfl

/-- Event classification. -/
@[simp] theorem isProgressSig_write (p : String) (d : List Nat) :
    (Ev.write p d).isProgressSig = false := rfl

/-- Event classification. -/
@[simp] theorem isProgressSig_log (m : String) : (Ev.log m).isProgressSig = false := rfl

/-- Event classification. -/
@[simp] theorem isProgressSig_progress (a b : Nat) (t : String) :
    (Ev.progress a b t).isProgressSig = true := rfl

/-- Event classification. -/
@[simp] theorem isProgressSig_done : (Ev.done).isProgressSig = false := rfl

/-- Event classification. -/
@[simp] theorem isProgressSig_failSig (e : String) : (Ev.failSig e).isProgressSig = false := rfl

/-- Event classification. -/
@[simp] theorem isStartLog_fetched (u : String) : (Ev.fetched u).isStartLog = false := rfl

/-- Event classification. -/
@[simp] theorem isStartLog_mkdir (p : String) : (Ev.mkdir p).isStartLog = false := rfl

/-- Event classification. -/
@[simp] theorem isStartLog_write (p : String) (d : List Nat) :
    (Ev.write p d).isStartLog = false := rfl

/-- Event classification. -/
@[simp] theorem isStartLog_progress (a b : Nat) (t : String) :
    (Ev.progress a b t).isStartLog = false := rfl

/-- Event classification. -/
@[simp] theorem isStartLog_done : (Ev.done).isStartLog = false := rfl

/-- Event classification. -/
@[simp] theorem isStartLog_failSig (e : String) : (Ev.failSig e).isStartLog = false := rfl

/-- The per-entry start line is a start log. -/
@[simp] theorem isStartLog_start (t : String) :
    (Ev.log ("• Scarico: " ++ t)).isStartLog = true := rfl

/-- The JSON success line is not a start log. -/
@[simp] theorem isStartLog_json_line (t : String) :
    (Ev.log ("  ✓ JSON → " ++ t)).isStartLog = false := rfl

/-- The preview success line is not a start log. -/
@[simp] theorem isStartLog_preview_line (t : String) :
    (Ev.log ("  ✓ Preview → " ++ t)).isStartLog = false := rfl

/-- The final line of a successful run is not a start log. -/
@[simp] theorem isStartLog_finito : (Ev.log finito_msg).isStartLog = false := rfl

/-- Unfolding of `downloadStep` as a top-level match. -/
theorem downloadStep_eq (env : Env) (url path : String) :
    downloadStep env url path =
      (match env.fetch url with
       | Except.error e => ([], some e)
       | Except.ok data =>
         match env.mkdir (dirname path) with
         | some e => ([Ev.fetched url], some e)
         | none =>
           match env.write path data with
           | some e => ([Ev.fetched url, Ev.mkdir (dirname path)], some e)
           | none =>
             ([Ev.fetched url, Ev.mkdir (dirname path), Ev.write path data],
              none)) := rfl

/-- Success shape of `_download_to`: all three operations succeeded and
the trace records them in order. -/
theorem downloadStep_success (env : Env) (url path : String)
    (h : (downloadStep env url path).2 = none) :
    ∃ data, env.fetch url = Except.ok data ∧
      env.mkdir (dirname path) = none ∧ env.write path data = none ∧
      downloadStep env url path =
        ([Ev.fetched url, Ev.mkdir (dirname path), Ev.write path data], none) := by
  cases hf : env.fetch url with
  | error e =>
    rw [downloadStep_eq] at h
    simp [hf] at h
  | ok data =>
    cases hm : env.mkdir (dirname path) with
    | some e =>
      rw [downloadStep_eq] at h
      simp [hf, hm] at h
    | none =>
      cases hw : env.write path data with
      | some e =>
        rw [downloadStep_eq] at h
        simp [hf, hm, hw] at h
      | none =>
        refine ⟨data, rfl, rfl, hw, ?_⟩
        rw [downloadStep_eq]
        simp [hf, hm, hw]

/-- Failure shape of `_download_to`: the message comes from the failing
operation and the partial trace holds no write, signal, or log. -/
theorem downloadStep_fail (env : Env) (url path : String) (e : String)
    (h : (downloadStep env url path).2 = some e) :
    errSource env e ∧
    ∀ ev ∈ (downloadStep env url path).1,
      ev = Ev.fetched url ∨ ev = Ev.mkdir (dirname path) := by
  cases hf : env.fetch url with
  | error e2 =>
    rw [downloadStep_eq] at h
    simp [hf] at h
    subst h
    refine ⟨Or.inl ⟨url, hf⟩, ?_⟩
    intro ev hev
    rw [downloadStep_eq] at hev
    simp [hf] at hev
  | ok data =>
    cases hm : env.mkdir (dirname path) with
    | some e2 =>
      rw [downloadStep_eq] at h
      simp [hf, hm] at h
      subst h
      refine ⟨Or.inr (Or.inl ⟨dirname path, hm⟩), ?_⟩
      intro ev hev
      rw [downloadStep_eq] at hev
      simp [hf, hm] at hev
      exact Or.inl hev
    | none =>
      cases hw : env.write path data with
      | some e2 =>
        rw [downloadStep_eq] at h
        simp [hf, hm, hw] at h
        subst h
        refine ⟨Or.inr (Or.inr ⟨path, data, hw⟩), ?_⟩
        intro ev hev
        rw [downloadStep_eq] at hev
        simp [hf, hm, hw] at hev
        rcases hev with h1 | h1
        · exact Or.inl h1
        · exact Or.inr h1
      | none =>
        rw [downloadStep_eq] at h
        simp [hf, hm, hw] at h

/-- Unfolding of `itemStep` as a top-level match. -/
theorem itemStep_eq (env : Env) (dir : String) (pv : Bool)
    (it : CatalogItem) (d0 total : Nat) :
    itemStep env dir pv it d0 total =
      (match (downloadStep env it.json_url (jsonPathOf dir it)).2 with
       | some e =>
         (Ev.log ("• Scarico: " ++ it.title) ::
           (downloadStep env it.json_url (jsonPathOf dir it)).1, some e)
       | none =>
         if pv = true ∧ it.preview_url ≠ "" then
           match (downloadStep env it.preview_url (previewPathOf dir it)).2 with
           | some e =>
             ((Ev.log ("• Scarico: " ++ it.title) ::
                (downloadStep env it.json_url (jsonPathOf dir it)).1 ++
                [Ev.log ("  ✓ JSON → " ++ jsonPathOf dir it)]) ++
              (downloadStep env it.preview_url (previewPathOf dir it)).1, some e)
           | none =>
             ((Ev.log ("• Scarico: " ++ it.title) ::
                (downloadStep env it.json_url (jsonPathOf dir it)).1 ++
                [Ev.log ("  ✓ JSON → " ++ jsonPathOf dir it)]) ++
              (downloadStep env it.preview_url (previewPathOf dir it)).1 ++
              [Ev.log ("  ✓ Preview → " ++ previewPathOf dir it),
               Ev.progress (d0 + 1) total it.title], none)
         else
           ((Ev.log ("• Scarico: " ++ it.title) ::
              (downloadStep env it.json_url (jsonPathOf dir it)).1 ++
              [Ev.log ("  ✓ JSON → " ++ jsonPathOf dir it)]) ++
            [Ev.progress (d0 + 1) total it.title], none)) := rfl

/-- Success shape of one loop iteration: an explicit trace, with the
preview block present exactly when the flag is set and the preview URL
is non-empty. -/
theorem itemStep_success_shape (env : Env) (dir : String) (pv : Bool)
    (it : CatalogItem) (d0 total : Nat)
    (h : (itemStep env dir pv it d0 total).2 = none) :
    ∃ data, env.fetch it.json_url = Except.ok data ∧
      ((pv = true ∧ it.preview_url ≠ "") →
        ∃ data2, env.fetch it.preview_url = Except.ok data2 ∧
          itemStep env dir pv it d0 total =
            ([Ev.log ("• Scarico: " ++ it.title),
              Ev.fetched it.json_url,
              Ev.mkdir (dirname (jsonPathOf dir it)),
              Ev.write (jsonPathOf dir it) data,
              Ev.log ("  ✓ JSON → " ++ jsonPathOf dir it),
              Ev.fetched it.preview_url,
              Ev.mkdir (dirname (previewPathOf dir it)),
              Ev.write (previewPathOf dir it) data2,
              Ev.log ("  ✓ Preview → " ++ previewPathOf dir it),
              Ev.progress (d0 + 1) total it.title], none)) ∧
      (¬ (pv = true ∧ it.preview_url ≠ "") →
        itemStep env dir pv it d0 total =
          ([Ev.log ("• Scarico: " ++ it.title),
            Ev.fetched it.json_url,
            Ev.mkdir (dirname (jsonPathOf dir it)),
            Ev.write (jsonPathOf dir it) data,
            Ev.log ("  ✓ JSON → " ++ jsonPathOf dir it),
            Ev.progress (d0 + 1) total it.title], none)) := by
  cases hs1 : (downloadStep env it.json_url (jsonPathOf dir it)).2 with
  | some e =>
    rw [itemStep_eq] at h
    simp [hs1] at h
  | none =>
    obtain ⟨data, hfd, hmk, hwr, hds⟩ :=
      downloadStep_success env it.json_url (jsonPathOf dir it) hs1
    have hds1 : (downloadStep env it.json_url (jsonPathOf dir it)).1 =
        [Ev.fetched it.json_url, Ev.mkdir (dirname (jsonPathOf dir it)),
         Ev.write (jsonPathOf dir it) data] := by rw [hds]
    refine ⟨data, hfd, ?_, ?_⟩
    · intro hpv
      cases hs2 : (downloadStep env it.preview_url (previewPathOf dir it)).2 with
      | some e =>
        rw [itemStep_eq] at h
        simp [hs1, hpv, hs2] at h
      | none =>
        obtain ⟨data2, hfd2, hmk2, hwr2, hds2⟩ :=
          downloadStep_success env it.preview_url (previewPathOf dir it) hs2
        have hds21 : (downloadStep env it.preview_url (previewPathOf dir it)).1 =
            [Ev.fetched it.preview_url, Ev.mkdir (dirname (previewPathOf dir it)),
             Ev.write (previewPathOf dir it) data2] := by rw [hds2]
        refine ⟨data2, hfd2, ?_⟩
        rw [itemStep_eq]
        rw [hs1]
        rw [if_pos hpv, hs2, hds1, hds21]
        simp
    · intro hpv
      rw [itemStep_eq, hs1, if_neg hpv, hds1]
      simp

/-- Signal counts of a successful loop iteration: one progress signal,
one start log, no terminal signal, and the JSON file written at its
target path. -/
theorem itemStep_success_counts (env : Env) (dir : String) (pv : Bool)
    (it : CatalogItem) (d0 total : Nat)
    (h : (itemStep env dir pv it d0 total).2 = none) :
    List.countP Ev.isProgressSig (itemStep env dir pv it d0 total).1 = 1 ∧
    List.countP Ev.isStartLog (itemStep env dir pv it d0 total).1 = 1 ∧
    List.countP Ev.isTerminal (itemStep env dir pv it d0 total).1 = 0 ∧
    ∃ d, Ev.write (jsonPathOf dir it) d ∈ (itemStep env dir pv it d0 total).1 := by
  obtain ⟨data, hfd, hyes, hno⟩ := itemStep_success_shape env dir pv it d0 total h
  by_cases hpv : pv = true ∧ it.preview_url ≠ ""
  · obtain ⟨data2, hfd2, heq⟩ := hyes hpv
    rw [heq]
    refine ⟨?_, ?_, ?_, ⟨data, ?_⟩⟩ <;>
      simp [List.countP_cons]
  · rw [hno hpv]
    refine ⟨?_, ?_, ?_, ⟨data, ?_⟩⟩ <;>
      simp [List.countP_cons]

/-- Failure shape of one loop iteration: the message comes from a failed
operation, no progress or terminal signal is recorded, and exactly the
one start log of this entry appears. -/
theorem itemStep_fail (env : Env) (dir : String) (pv : Bool)
    (it : CatalogItem) (d0 total : Nat) (e : String)
    (h : (itemStep env dir pv it d0 total).2 = some e) :
    errSource env e ∧
    List.countP Ev.isProgressSig (itemStep env dir pv it d0 total).1 = 0 ∧
    List.countP Ev.isStartLog (itemStep env dir pv it d0 total).1 = 1 ∧
    List.countP Ev.isTerminal (itemStep env dir pv it d0 total).1 = 0 := by
  cases hs1 : (downloadStep env it.json_url (jsonPathOf dir it)).2 with
  | some e1 =>
    have heq : itemStep env dir pv it d0 total =
        (Ev.log ("• Scarico: " ++ it.title) ::
          (downloadStep env it.json_url (jsonPathOf dir it)).1, some e1) := by
      rw [itemStep_eq, hs1]
    rw [heq] at h
    have he : e1 = e := by simpa using h
    subst he
    obtain ⟨hsrc, hmem⟩ := downloadStep_fail env it.json_url (jsonPathOf dir it) e1 hs1
    have hz : ∀ p : Ev → Bool, p (Ev.fetched it.json_url) = false →
        p (Ev.mkdir (dirname (jsonPathOf dir it))) = false →
        List.countP p (downloadStep env it.json_url (jsonPathOf dir it)).1 = 0 := by
      intro p h1 h2
      apply List.countP_eq_zero.mpr
      intro a ha
      rcases hmem a ha with h3 | h3 <;> simp [h3, h1, h2]
    rw [heq]
    refine ⟨hsrc, ?_, ?_, ?_⟩
    · simp [List.countP_cons, hz Ev.isProgressSig rfl rfl]
    · simp [List.countP_cons, hz Ev.isStartLog rfl rfl]
    · simp [List.countP_cons, hz Ev.isTerminal rfl rfl]
  | none =>
    obtain ⟨data, hfd, hmk, hwr, hds⟩ :=
      downloadStep_success env it.json_url (jsonPathOf dir it) hs1
    have hds1 : (downloadStep env it.json_url (jsonPathOf dir it)).1 =
        [Ev.fetched it.json_url, Ev.mkdir (dirname (jsonPathOf dir it)),
         Ev.write (jsonPathOf dir it) data] := by rw [hds]
    by_cases hpv : pv = true ∧ it.preview_url ≠ ""
    · cases hs2 : (downloadStep env it.preview_url (previewPathOf dir it)).2 with
      | some e2 =>
        have heq : itemStep env dir pv it d0 total =
            ((Ev.log ("• Scarico: " ++ it.title) ::
               (downloadStep env it.json_url (jsonPathOf dir it)).1 ++
               [Ev.log ("  ✓ JSON → " ++ jsonPathOf dir it)]) ++
             (downloadStep env it.preview_url (previewPathOf dir it)).1, some e2) := by
          rw [itemStep_eq, hs1, if_pos hpv, hs2]
        rw [heq] at h
        have he : e2 = e := by simpa using h
        subst he
        obtain ⟨hsrc2, hmem2⟩ :=
          downloadStep_fail env it.preview_url (previewPathOf dir it) e2 hs2
        have hz2 : ∀ p : Ev → Bool, p (Ev.fetched it.preview_url) = false →
            p (Ev.mkdir (dirname (previewPathOf dir it))) = false →
            List.countP p (downloadStep env it.preview_url (previewPathOf dir it)).1 = 0 := by
          intro p h1 h2
          apply List.countP_eq_zero.mpr
          intro a ha
          rcases hmem2 a ha with h3 | h3 <;> simp [h3, h1, h2]
        rw [heq]
        refine ⟨hsrc2, ?_, ?_, ?_⟩
        · simp [List.countP_append, List.countP_cons, hds1,
            hz2 Ev.isProgressSig rfl rfl]
        · simp [List.countP_append, List.countP_cons, hds1,
            hz2 Ev.isStartLog rfl rfl]
        · simp [List.countP_append, List.countP_cons, hds1,
            hz2 Ev.isTerminal rfl rfl]
      | none =>
        rw [itemStep_eq, hs1, if_pos hpv, hs2] at h
        simp at h
    · rw [itemStep_eq, hs1, if_neg hpv] at h
      simp at h

/-- Unfolding of `runLoop` on cons. -/
theorem runLoop_cons (env : Env) (dir : String) (pv : Bool) (total : Nat)
    (it : CatalogItem) (rest : List CatalogItem) (d0 : Nat) :
    runLoop env dir pv total (it :: rest) d0 =
      (match (itemStep env dir pv it d0 total).2 with
       | some e => ((itemStep env dir pv it d0 total).1, some e)
       | none =>
         ((itemStep env dir pv it d0 total).1 ++
            (runLoop env dir pv total rest (d0 + 1)).1,
          (runLoop env dir pv total rest (d0 + 1)).2)) := rfl

/-- Behaviour of the download loop: on success, one progress signal and
one start log per entry, no terminal signal and every JSON file written;
on failure, `k` entries completed with exactly one extra start log, the
message of the failing operation propagated, and the files of the
completed entries written. -/
theorem runLoop_spec (env : Env) (dir : String) (pv : Bool) (total : Nat) :
    ∀ (items : List CatalogItem) (d0 : Nat),
      ((runLoop env dir pv total items d0).2 = none →
        List.countP Ev.isProgressSig (runLoop env dir pv total items d0).1 =
          items.length ∧
        List.countP Ev.isStartLog (runLoop env dir pv total items d0).1 =
          items.length ∧
        List.countP Ev.isTerminal (runLoop env dir pv total items d0).1 = 0 ∧
        (∀ it ∈ items, ∃ d,
          Ev.write (jsonPathOf dir it) d ∈ (runLoop env dir pv total items d0).1)) ∧
      (∀ e, (runLoop env dir pv total items d0).2 = some e →
        errSource env e ∧
        List.countP Ev.isTerminal (runLoop env dir pv total items d0).1 = 0 ∧
        ∃ k, k < items.length ∧
          List.countP Ev.isProgressSig (runLoop env dir pv total items d0).1 = k ∧
          List.countP Ev.isStartLog (runLoop env dir pv total items d0).1 = k + 1 ∧
          (∀ it ∈ items.take k, ∃ d,
            Ev.write (jsonPathOf dir it) d ∈ (runLoop env dir pv total items d0).1)) := by
  intro items
  induction items with
  | nil =>
    intro d0
    constructor
    · intro _
      refine ⟨rfl, rfl, rfl, ?_⟩
      intro it hit
      simp at hit
    · intro e he
      simp [runLoop] at he
  | cons it rest ih =>
    intro d0
    cases hs : (itemStep env dir pv it d0 total).2 with
    | some e0 =>
      have heq : runLoop env dir pv total (it :: rest) d0 =
          ((itemStep env dir pv it d0 total).1, some e0) := by
        rw [runLoop_cons, hs]
      obtain ⟨hsrc, hp0, hs1, ht0⟩ := itemStep_fail env dir pv it d0 total e0 hs
      constructor
      · intro hnone
        rw [heq] at hnone
        simp at hnone
      · intro e he
        rw [heq] at he
        have he0 : e0 = e := by simpa using he
        subst he0
        rw [heq]
        refine ⟨hsrc, ht0, 0, by simp, hp0, by simpa using hs1, ?_⟩
        intro it2 hit2
        simp at hit2
    | none =>
      have heq : runLoop env dir pv total (it :: rest) d0 =
          ((itemStep env dir pv it d0 total).1 ++
             (runLoop env dir pv total rest (d0 + 1)).1,
           (runLoop env dir pv total rest (d0 + 1)).2) := by
        rw [runLoop_cons, hs]
      obtain ⟨hp1, hsl1, ht1, d1, hw1⟩ :=
        itemStep_success_counts env dir pv it d0 total hs
      constructor
      · intro hnone
        rw [heq] at hnone
        have hrest := ((ih (d0 + 1)).1) hnone
        obtain ⟨hrp, hrs, hrt, hrw⟩ := hrest
        rw [heq]
        refine ⟨?_, ?_, ?_, ?_⟩
        · simp [List.countP_append, hp1, hrp]
          try omega
        · simp [List.countP_append, hsl1, hrs]
          try omega
        · simp [List.countP_append, ht1, hrt]
          try omega
        · intro it2 hit2
          rcases List.mem_cons.mp hit2 with h2 | h2
          · subst h2
            exact ⟨d1, List.mem_append_left _ hw1⟩
          · obtain ⟨d2, hd2⟩ := hrw it2 h2
            exact ⟨d2, List.mem_append_right _ hd2⟩
      · intro e he
        rw [heq] at he
        have hrest := ((ih (d0 + 1)).2) e he
        obtain ⟨hsrc, hrt, k, hk, hrp, hrs, hrw⟩ := hrest
        rw [heq]
        refine ⟨hsrc, ?_, k + 1, ?_, ?_, ?_, ?_⟩
        · simp [List.countP_append, ht1, hrt]
          try omega
        · simp only [List.length_cons]
          omega
        · simp [List.countP_append, hp1, hrp]
          try omega
        · simp [List.countP_append, hsl1, hrs]
          try omega
        · intro it2 hit2
          rw [List.take_succ_cons] at hit2
          rcases List.mem_cons.mp hit2 with h2 | h2
          · subst h2
            exact ⟨d1, List.mem_append_left _ hw1⟩
          · obtain ⟨d2, hd2⟩ := hrw it2 h2
            exact ⟨d2, List.mem_append_right _ hd2⟩

/-- Unfolding of `runWorker` as a top-level match. -/
theorem runWorker_eq (env : Env) (items : List CatalogItem)
    (out_dir : String) (pv : Bool) :
    runWorker env items out_dir pv =
      (match env.mkdir out_dir with
       | some e => [Ev.failSig e]
       | none =>
         match (runLoop env out_dir pv items.length items 0).2 with
         | some e =>
           Ev.mkdir out_dir :: (runLoop env out_dir pv items.length items 0).1 ++
             [Ev.failSig e]
         | none =>
           Ev.mkdir out_dir :: (runLoop env out_dir pv items.length items 0).1 ++
             [Ev.log finito_msg, Ev.done]) := rfl

/-- A terminal event cannot occur in a terminal-free trace. -/
theorem not_terminal_mem (L : List Ev)
    (hrt : List.countP Ev.isTerminal L = 0) (x : Ev)
    (hx : Ev.isTerminal x = true) : x ∉ L := by
  intro hmem
  have h2 := List.countP_eq_zero.mp hrt x hmem
  rw [hx] at h2
  exact h2 rfl

/-- Claim C3: every download run emits exactly one terminal signal, as
its last event.  A run whose terminal is `done` emitted one progress
signal per entry and wrote every entry JSON file.  A run whose terminal
is `fail e` carries the message `e` of the operation that failed, emitted
no `done`, completed exactly some `k ≤ n` entries (their files written
and in place — the model never deletes), and announced at most one entry
beyond the completed ones: the remaining entries were never attempted. -/
theorem c3_fail_fast (env : Env) (items : List CatalogItem)
    (out_dir : String) (pv : Bool) :
    (∃ pre t, runWorker env items out_dir pv = pre ++ [t] ∧
       Ev.isTerminal t = true ∧
       List.countP Ev.isTerminal (runWorker env items out_dir pv) = 1) ∧
    (Ev.done ∈ runWorker env items out_dir pv →
       List.countP Ev.isProgressSig (runWorker env items out_dir pv) =
         items.length ∧
       (∀ it ∈ items, ∃ d,
         Ev.write (jsonPathOf out_dir it) d ∈ runWorker env items out_dir pv)) ∧
    (∀ e, Ev.failSig e ∈ runWorker env items out_dir pv →
       Ev.done ∉ runWorker env items out_dir pv ∧
       errSource env e ∧
       ∃ k, k ≤ items.length ∧
         List.countP Ev.isProgressSig (runWorker env items out_dir pv) = k ∧
         List.countP Ev.isStartLog (runWorker env items out_dir pv) ≤ k + 1 ∧
         (∀ it ∈ items.take k, ∃ d,
           Ev.write (jsonPathOf out_dir it) d ∈ runWorker env items out_dir pv)) := by
  cases hm : env.mkdir out_dir with
  | some e0 =>
    have heq : runWorker env items out_dir pv = [Ev.failSig e0] := by
      rw [runWorker_eq, hm]
    rw [heq]
    refine ⟨⟨[], Ev.failSig e0, rfl, rfl, by simp⟩, ?_, ?_⟩
    · intro hdone
      simp at hdone
    · intro e he
      have he2 : e = e0 := by
        simp at he
        exact he
      subst he2
      refine ⟨by simp, Or.inr (Or.inl ⟨out_dir, hm⟩), 0, by simp, by simp, by simp, ?_⟩
      intro it hit
      simp at hit
  | none =>
    cases hl : (runLoop env out_dir pv items.length items 0).2 with
    | none =>
      have heq : runWorker env items out_dir pv =
          Ev.mkdir out_dir :: (runLoop env out_dir pv items.length items 0).1 ++
            [Ev.log finito_msg, Ev.done] := by
        rw [runWorker_eq, hm, hl]
      obtain ⟨hrp, hrs, hrt, hrw⟩ :=
        (runLoop_spec env out_dir pv items.length items 0).1 hl
      rw [heq]
      refine ⟨?_, ?_, ?_⟩
      · refine ⟨Ev.mkdir out_dir ::
          (runLoop env out_dir pv items.length items 0).1 ++ [Ev.log finito_msg],
          Ev.done, by simp, rfl, ?_⟩
        simp [List.countP_append, List.countP_cons, hrt]
      · intro _
        constructor
        · simp [List.countP_append, List.countP_cons, hrp]
        · intro it hit
          obtain ⟨d, hd⟩ := hrw it hit
          exact ⟨d, by simp [hd]⟩
      · intro e he
        exfalso
        simp only [List.cons_append, List.mem_cons, List.mem_append] at he
        rcases he with h1 | (h1 | (h1 | h1))
        · exact absurd h1 (by simp)
        · exact not_terminal_mem _ hrt (Ev.failSig e) rfl h1
        · simp at h1
        · simp at h1
    | some e0 =>
      have heq : runWorker env items out_dir pv =
          Ev.mkdir out_dir :: (runLoop env out_dir pv items.length items 0).1 ++
            [Ev.failSig e0] := by
        rw [runWorker_eq, hm, hl]
      obtain ⟨hsrc, hrt, k, hk, hrp, hrs, hrw⟩ :=
        (runLoop_spec env out_dir pv items.length items 0).2 e0 hl
      rw [heq]
      have hdone : Ev.done ∉
          Ev.mkdir out_dir :: (runLoop env out_dir pv items.length items 0).1 ++
            [Ev.failSig e0] := by
        intro hmem
        simp only [List.cons_append, List.mem_cons, List.mem_append] at hmem
        rcases hmem with h1 | (h1 | h1)
        · exact absurd h1 (by simp)
        · exact not_terminal_mem _ hrt Ev.done rfl h1
        · simp at h1
      refine ⟨?_, ?_, ?_⟩
      · refine ⟨Ev.mkdir out_dir ::
          (runLoop env out_dir pv items.length items 0).1, Ev.failSig e0,
          by simp, rfl, ?_⟩
        simp [List.countP_append, List.countP_cons, hrt]
      · intro hd
        exact absurd hd hdone
      · intro e he
        have he2 : e = e0 := by
          simp only [List.cons_append, List.mem_cons, List.mem_append] at he
          rcases he with h1 | (h1 | h1)
          · exact absurd h1 (by simp)
          · exact absurd h1 (not_terminal_mem _ hrt (Ev.failSig e) rfl)
          · simpa using h1
        subst he2
        refine ⟨hdone, hsrc, k, by omega, ?_, ?_, ?_⟩
        · simp [List.countP_append, List.countP_cons, hrp]
        · simp [List.countP_append, List.countP_cons, hrs]
        · intro it hit
          obtain ⟨d, hd⟩ := hrw it hit
          exact ⟨d, by simp [hd]⟩

/-- Witness for C3: with two entries where the second fetch fails with
`boom`, the run emits the failure signal, no `done`, and the message is
the one the environment raised. -/
theorem c3_witness :
    Ev.failSig "boom" ∈ runWorker w_env_fail2 [w_item1, w_item2] "/r" false ∧
    Ev.done ∉ runWorker w_env_fail2 [w_item1, w_item2] "/r" false ∧
    errSource w_env_fail2 "boom" := by
  have h := (c3_fail_fast w_env_fail2 [w_item1, w_item2] "/r" false).2.2 "boom"
    (by decide)
  exact ⟨by decide, h.1, h.2.1⟩

/-- Appending strings appends their character data. -/
theorem str_data_append (a b : String) : (a ++ b).data = a.data ++ b.data := rfl

/-- The sanitizer output starts with a kept character. -/
theorem safe_filename_head_kept (x : String) :
    ∃ c rest, (safe_filename x).data = c :: rest ∧ isKeptChar c = true := by
  rcases safe_filename_chars x with h | ⟨l, hl, hne, hk, _, _, _⟩
  · rw [h]
    exact ⟨'f', ['i', 'l', 'e'], rfl, by decide⟩
  · rw [hl]
    cases l with
    | nil => exact absurd rfl hne
    | cons c rest => exact ⟨c, rest, rfl, hk c (List.mem_cons_self c rest)⟩

/-- A list starting with a non-slash character does not begin with a
slash. -/
theorem beginsWith_slash_cons (c : Char) (l : List Char) (h : ¬ '/' = c) :
    beginsWith ['/'] (c :: l) = false := by
  simp [beginsWith, h]

/-- A file name built from the sanitizer and an extension never starts
with a slash. -/
theorem name_not_slash (t ext : String) :
    strBeginsWith (safe_filename t ++ ext) "/" = false := by
  obtain ⟨c, rest, hdata, hc⟩ := safe_filename_head_kept t
  show beginsWith ['/'] ((safe_filename t ++ ext).data) = false
  have hd : (safe_filename t ++ ext).data = c :: (rest ++ ext.data) := by
    rw [str_data_append, hdata]
    rfl
  rw [hd]
  refine beginsWith_slash_cons c _ (fun hh => ?_)
  rw [← hh] at hc
  exact absurd hc (by decide)

/-- pathJoin against a name that does not start with a slash, from a
non-empty base not ending in a slash, inserts exactly one slash. -/
theorem pathJoin_name (A n : String) (hA : ¬ A = "")
    (hAe : strEndsWith A "/" = false) (hn : strBeginsWith n "/" = false) :
    pathJoin A n = A ++ "/" ++ n := by
  simp [pathJoin, hn, hA, hAe]

/-- pathJoin against a literal subdirectory name: the two branches on
the base directory. -/
theorem pathJoin_dir_lit (dir lit : String)
    (hlit : strBeginsWith lit "/" = false) :
    pathJoin dir lit =
      (if dir = "" ∨ strEndsWith dir "/" = true then dir ++ lit
       else dir ++ "/" ++ lit) := by
  simp [pathJoin, hlit]

/-- Two appends on a common front differing at the next character are
different lists. -/
theorem append_ne_of_head_ne (X : List Char) (c1 c2 : Char)
    (l1 l2 : List Char) (h : ¬ c1 = c2) : X ++ c1 :: l1 ≠ X ++ c2 :: l2 := by
  intro heq
  have h2 := List.append_cancel_left heq
  injection h2 with h3
  exact h h3

/-- The JSON target of one entry is never the preview target of another:
the two live in the distinct `json` and `preview` subdirectories. -/
theorem json_preview_path_ne (dir : String) (a b : CatalogItem) :
    jsonPathOf dir a ≠ previewPathOf dir b := by
  intro heq
  have hja : strBeginsWith (jsonNameOf a) "/" = false :=
    name_not_slash a.title (guess_ext_from_url a.json_url ".json")
  have hpb : strBeginsWith (previewNameOf b) "/" = false :=
    name_not_slash b.title (guess_ext_from_url b.preview_url ".webp")
  have hlit1 : strBeginsWith ("json" : String) "/" = false := by decide
  have hlit2 : strBeginsWith ("preview" : String) "/" = false := by decide
  by_cases hd : dir = "" ∨ strEndsWith dir "/" = true
  · have e1 : pathJoin dir "json" = dir ++ "json" := by
      rw [pathJoin_dir_lit dir "json" hlit1, if_pos hd]
    have e2 : pathJoin dir "preview" = dir ++ "preview" := by
      rw [pathJoin_dir_lit dir "preview" hlit2, if_pos hd]
    have hA1 : ¬ dir ++ "json" = "" := by
      intro h0
      have h1 := congrArg String.data h0
      rw [str_data_append] at h1
      simp at h1
    have hA2 : ¬ dir ++ "preview" = "" := by
      intro h0
      have h1 := congrArg String.data h0
      rw [str_data_append] at h1
      simp at h1
    have hA1e : strEndsWith (dir ++ "json") "/" = false := by
      show beginsWith ['/'] ((dir ++ "json").data.reverse) = false
      rw [str_data_append]
      have hj : ("json" : String).data = ['j', 's', 'o', 'n'] := rfl
      rw [hj, List.reverse_append]
      exact beginsWith_slash_cons 'n' _ (by decide)
    have hA2e : strEndsWith (dir ++ "preview") "/" = false := by
      show beginsWith ['/'] ((dir ++ "preview").data.reverse) = false
      rw [str_data_append]
      have hj : ("preview" : String).data = ['p', 'r', 'e', 'v', 'i', 'e', 'w'] := rfl
      rw [hj, List.reverse_append]
      exact beginsWith_slash_cons 'w' _ (by decide)
    have h1 : jsonPathOf dir a = (dir ++ "json") ++ "/" ++ jsonNameOf a := by
      show pathJoin (pathJoin dir "json") (jsonNameOf a) = _
      rw [e1, pathJoin_name _ _ hA1 hA1e hja]
    have h2 : previewPathOf dir b = (dir ++ "preview") ++ "/" ++ previewNameOf b := by
      show pathJoin (pathJoin dir "preview") (previewNameOf b) = _
      rw [e2, pathJoin_name _ _ hA2 hA2e hpb]
    rw [h1, h2] at heq
    have hdata := congrArg String.data heq
    simp only [str_data_append, List.append_assoc, List.cons_append,
      List.nil_append] at hdata
    exact append_ne_of_head_ne dir.data 'j' 'p' _ _ (by decide) hdata
  · have e1 : pathJoin dir "json" = dir ++ "/" ++ "json" := by
      rw [pathJoin_dir_lit dir "json" hlit1, if_neg hd]
    have e2 : pathJoin dir "preview" = dir ++ "/" ++ "preview" := by
      rw [pathJoin_dir_lit dir "preview" hlit2, if_neg hd]
    have hA1 : ¬ dir ++ "/" ++ "json" = "" := by
      intro h0
      have h1 := congrArg String.data h0
      rw [str_data_append] at h1
      simp at h1
    have hA2 : ¬ dir ++ "/" ++ "preview" = "" := by
      intro h0
      have h1 := congrArg String.data h0
      rw [str_data_append] at h1
      simp at h1
    have hA1e : strEndsWith (dir ++ "/" ++ "json") "/" = false := by
      show beginsWith ['/'] ((dir ++ "/" ++ "json").data.reverse) = false
      rw [str_data_append]
      have hj : ("json" : String).data = ['j', 's', 'o', 'n'] := rfl
      rw [hj, List.reverse_append]
      exact beginsWith_slash_cons 'n' _ (by decide)
    have hA2e : strEndsWith (dir ++ "/" ++ "preview") "/" = false := by
      show beginsWith ['/'] ((dir ++ "/" ++ "preview").data.reverse) = false
      rw [str_data_append]
      have hj : ("preview" : String).data = ['p', 'r', 'e', 'v', 'i', 'e', 'w'] := rfl
      rw [hj, List.reverse_append]
      exact beginsWith_slash_cons 'w' _ (by decide)
    have h1 : jsonPathOf dir a = (dir ++ "/" ++ "json") ++ "/" ++ jsonNameOf a := by
      show pathJoin (pathJoin dir "json") (jsonNameOf a) = _
      rw [e1, pathJoin_name _ _ hA1 hA1e hja]
    have h2 : previewPathOf dir b = (dir ++ "/" ++ "preview") ++ "/" ++ previewNameOf b := by
      show pathJoin (pathJoin dir "preview") (previewNameOf b) = _
      rw [e2, pathJoin_name _ _ hA2 hA2e hpb]
    rw [h1, h2] at heq
    have hdata := congrArg String.data heq
    simp only [str_data_append, List.append_assoc, List.cons_append,
      List.nil_append] at hdata
    have hdata2 := List.append_cancel_left hdata
    injection hdata2 with h3 h4
    injection h4 with h5 h6
    exact absurd h5 (by decide)

/-- Claim C5: for every entry the Download Job processes successfully,
the JSON payload is written exactly at
`out_dir/json/<sanitize(title)><ext(jsonUrl, .json)>`; a preview file is
written, exactly at
`out_dir/preview/<sanitize(title)><ext(previewUrl, .webp)>`, iff the
include-preview flag is set and the preview URL is non-empty; every
write of the iteration goes to one of these two paths; and each write is
immediately preceded by the creation of its parent directory. -/
theorem c5_target_paths (env : Env) (out_dir : String) (pv : Bool)
    (it : CatalogItem) (d0 total : Nat)
    (h : (itemStep env out_dir pv it d0 total).2 = none) :
    (∃ data, env.fetch it.json_url = Except.ok data ∧
      Ev.write (jsonPathOf out_dir it) data ∈
        (itemStep env out_dir pv it d0 total).1) ∧
    ((pv = true ∧ it.preview_url ≠ "") ↔
      ∃ d2, Ev.write (previewPathOf out_dir it) d2 ∈
        (itemStep env out_dir pv it d0 total).1) ∧
    (∀ p d2, Ev.write p d2 ∈ (itemStep env out_dir pv it d0 total).1 →
      p = jsonPathOf out_dir it ∨ p = previewPathOf out_dir it) ∧
    (∀ p d2, Ev.write p d2 ∈ (itemStep env out_dir pv it d0 total).1 →
      ∃ pre suf, (itemStep env out_dir pv it d0 total).1 =
        pre ++ Ev.mkdir (dirname p) :: Ev.write p d2 :: suf) := by
  obtain ⟨data, hfd, hyes, hno⟩ := itemStep_success_shape env out_dir pv it d0 total h
  by_cases hpv : pv = true ∧ it.preview_url ≠ ""
  · obtain ⟨data2, hfd2, heq⟩ := hyes hpv
    rw [heq]
    refine ⟨⟨data, hfd, by simp⟩, ?_, ?_, ?_⟩
    · exact Iff.intro (fun _ => ⟨data2, by simp⟩) (fun _ => hpv)
    · intro p d2 hmem
      simp at hmem
      rcases hmem with ⟨h1, _⟩ | ⟨h1, _⟩
      · exact Or.inl h1
      · exact Or.inr h1
    · intro p d2 hmem
      simp at hmem
      rcases hmem with ⟨h1, h2⟩ | ⟨h1, h2⟩
      · subst h1; subst h2
        exact ⟨[Ev.log ("• Scarico: " ++ it.title), Ev.fetched it.json_url],
          [Ev.log ("  ✓ JSON → " ++ jsonPathOf out_dir it),
           Ev.fetched it.preview_url,
           Ev.mkdir (dirname (previewPathOf out_dir it)),
           Ev.write (previewPathOf out_dir it) data2,
           Ev.log ("  ✓ Preview → " ++ previewPathOf out_dir it),
           Ev.progress (d0 + 1) total it.title], by simp⟩
      · subst h1; subst h2
        exact ⟨[Ev.log ("• Scarico: " ++ it.title), Ev.fetched it.json_url,
           Ev.mkdir (dirname (jsonPathOf out_dir it)),
           Ev.write (jsonPathOf out_dir it) data,
           Ev.log ("  ✓ JSON → " ++ jsonPathOf out_dir it),
           Ev.fetched it.preview_url],
          [Ev.log ("  ✓ Preview → " ++ previewPathOf out_dir it),
           Ev.progress (d0 + 1) total it.title], by simp⟩
  · rw [hno hpv]
    refine ⟨⟨data, hfd, by simp⟩, ?_, ?_, ?_⟩
    · constructor
      · intro hpv2
        exact absurd hpv2 hpv
      · rintro ⟨d2, hmem⟩
        simp at hmem
        exact absurd hmem.1.symm (json_preview_path_ne out_dir it it)
    · intro p d2 hmem
      simp at hmem
      exact Or.inl hmem.1
    · intro p d2 hmem
      simp at hmem
      obtain ⟨h1, h2⟩ := hmem
      subst h1; subst h2
      exact ⟨[Ev.log ("• Scarico: " ++ it.title), Ev.fetched it.json_url],
        [Ev.log ("  ✓ JSON → " ++ jsonPathOf out_dir it),
         Ev.progress (d0 + 1) total it.title], by simp⟩

/-- Witness for C5 at a concrete entry and environment. -/
theorem c5_witness :
    jsonPathOf "/r" w_item1 = "/r/json/Alpha.json" ∧
    Ev.write (jsonPathOf "/r" w_item1) [1, 2] ∈
      (itemStep w_env_ok "/r" true w_item1 0 1).1 := by
  have h := c5_target_paths w_env_ok "/r" true w_item1 0 1 (by decide)
  obtain ⟨data, hf, hw⟩ := h.1
  have hf2 : (Except.ok [1, 2] : Except String (List Nat)) = Except.ok data := hf
  have hd : ([1, 2] : List Nat) = data := by injection hf2
  rw [← hd] at hw
  exact ⟨by decide, hw⟩

end TK
